import Mathlib

/-!
Verification of the D* Lite planner (src/planner.cpp) against its
natural-language specification.

The planner is embedded shallowly:

* C++ `double` values are modelled by `Dbl`: either a finite fixed-point
  rational `Dbl.fin n` denoting the real number `n / 10^8`, or the IEEE
  infinity sentinel `Dbl.inf`.  All additions, minima and comparisons in the
  planner are exact in this model; the only roundings are in the two places
  the source itself rounds in binary floating point (the `√2` scale factor
  and the mid-point of two costs), and these are at scale `10^-8`, far below
  the tolerance `EPSILON = 10^-5` that every comparison in the planner goes
  through.
* `Map::Cell*` becomes an `(x, y)` coordinate pair; the null pointer becomes
  `Option.none`.  The cell graph (map.cpp, not part of src/) is modelled from
  the spec: an in-bounds king-move neighbourhood of size 8, null-padded at the
  boundary, with a mutable per-cell cost and `COST_UNWALKABLE` propagating as
  infinite edge cost.
* The numeric predicates (math.cpp, not part of src/) are modelled from the
  spec: tolerant equality / ordering against the fixed epsilon, with the
  infinity sentinel equal only to itself.
* Every member function of `Planner` becomes a state-passing function on
  `PState`; the overloaded get/set accessors keep their `DBL_MIN` sentinel
  calling convention.  The unbounded `while` loops of the source get an
  explicit step budget: for `_compute` this is exactly the source's own
  `MAX_STEPS` attempts counter, for the path-extraction walk of `replan` it
  is a model fuel whose exhaustion is reported as `Outcome.fuelOut`
  (the C++ loop would still be running).  Reading `begin()` of an empty
  open list (undefined behaviour in C++) is reported as `Outcome.emptyPeek`.
-/

/-- Finite fixed-point value `n / 10 ^ 8`, or the IEEE infinity sentinel. -/
inductive Dbl where
  | fin : Int → Dbl
  | inf : Dbl
deriving DecidableEq, Repr

/-- The fixed-point scale: the integer `n` denotes the real `n / FXONE`. -/
def FXONE : Int := 100000000

/-- Modelled from the spec: the precomputed `√2` constant of the numeric
predicates component (math.cpp is not under src/), at the model's scale. -/
def SQRT2 : Int := 141421356

/-- Modelled from the spec: the fixed epsilon `1e-5` of the tolerant float
comparisons (math.cpp is not under src/), at the model's scale. -/
def EPSILON : Int := 1000

/-- Model of the C constant `DBL_MIN` (smallest positive normalised double),
which the overloaded accessors `_g` / `_rhs` use as the read-only sentinel:
here, the smallest positive representable fixed-point value. -/
def DBL_MIN : Dbl := Dbl.fin 1

/-- Modelled from the spec: `Map::Cell::COST_UNWALKABLE`, the distinguished
cost denoting impassable terrain, which propagates as infinite edge cost
(map.cpp is not under src/). -/
def COST_UNWALKABLE : Dbl := Dbl.inf

/-- Addition of doubles; infinity absorbs (all planner values are
non-negative, so no indeterminate forms arise). -/
def Dbl.addD : Dbl → Dbl → Dbl
  | fin a, fin b => fin (a + b)
  | _, _ => inf

/-- Multiplication of doubles (used only to apply the `√2` scale factor). -/
def Dbl.mulD : Dbl → Dbl → Dbl
  | fin a, fin b => fin (a * b / FXONE)
  | _, _ => inf

/-- Halving of a double, for the mid-point cost of an edge. -/
def Dbl.halfD : Dbl → Dbl
  | fin a => fin (a / 2)
  | inf => inf

/-- Exact (bit-level) less-than on doubles, as used by `std::min`. -/
def Dbl.bltD : Dbl → Dbl → Bool
  | fin a, fin b => a < b
  | fin _, inf => true
  | inf, _ => false

/-- Exact minimum of two doubles: the `std::min` of the source. -/
def Dbl.minD (a b : Dbl) : Dbl := if Dbl.bltD b a then b else a

/-- Modelled from the spec: tolerant equality of the numeric predicates
component - values within epsilon are equal, and the infinity sentinel is
equal only to itself (math.cpp is not under src/). -/
def Math.equalsB : Dbl → Dbl → Bool
  | Dbl.fin a, Dbl.fin b => (a - b).natAbs < EPSILON.natAbs
  | Dbl.inf, Dbl.inf => true
  | _, _ => false

/-- Modelled from the spec: tolerant less-than - a strict comparison that
treats values within epsilon as tied (math.cpp is not under src/). -/
def Math.lessB (a b : Dbl) : Bool := !Math.equalsB a b && Dbl.bltD a b

/-- Modelled from the spec: tolerant greater-than (math.cpp is not under
src/). -/
def Math.greaterB (a b : Dbl) : Bool := !Math.equalsB a b && Dbl.bltD b a

/-- A grid cell, identified by its integer coordinates. -/
abbrev Cell := Int × Int

/-- A two-component priority key, ordered lexicographically by the tolerant
comparisons. -/
abbrev KeyD := Dbl × Dbl

/-- The planner state: the borrowed map (bounds and mutable cost field), the
search anchors, and the owned structures - the lazily materialised
`(g, rhs)` store `cellHash`, the ordered open list, and the path buffer. -/
structure PState where
  W : Int
  H : Int
  costs : Cell → Dbl
  start : Cell
  goal : Cell
  last : Cell
  km : Dbl
  cellHash : List (Cell × Dbl × Dbl)
  openList : List (KeyD × Cell)
  path : List (Option Cell)

/-- Result of running a planner operation: a value, or the two ways the
source can leave the model - dereferencing `begin()` of an empty open list
(undefined behaviour), or exceeding the model fuel of an unbounded loop. -/
inductive Outcome (α : Type) where
  | ok : α → Outcome α
  | emptyPeek : Outcome α
  | fuelOut : Outcome α
deriving DecidableEq, Repr

/-- Association lookup in the `(g, rhs)` store. -/
def hashFind : List (Cell × Dbl × Dbl) → Cell → Option (Dbl × Dbl)
  | [], _ => none
  | e :: t, u => if e.1 = u then some e.2 else hashFind t u

/-- The g value a read of cell `u` yields: stored first component, or the
lazy default infinity. -/
def gRead (s : PState) (u : Cell) : Dbl :=
  ((hashFind s.cellHash u).getD (Dbl.inf, Dbl.inf)).1

/-- The stored rhs value of cell `u` (lazy default infinity), before the
goal pinning of `_rhs`. -/
def rhsRaw (s : PState) (u : Cell) : Dbl :=
  ((hashFind s.cellHash u).getD (Dbl.inf, Dbl.inf)).2

/-- The rhs value a read of cell `u` yields: 0 for the goal, the stored
value otherwise. -/
def rhsRead (s : PState) (u : Cell) : Dbl :=
  if u = s.goal then Dbl.fin 0 else rhsRaw s u

/-- Overwrite the g component of an existing entry of the store. -/
def hashSetG : List (Cell × Dbl × Dbl) → Cell → Dbl → List (Cell × Dbl × Dbl)
  | [], _, _ => []
  | e :: t, u, v => if e.1 = u then (u, v, e.2.2) :: t else e :: hashSetG t u v

/-- Overwrite the rhs component of an existing entry of the store. -/
def hashSetRhs : List (Cell × Dbl × Dbl) → Cell → Dbl → List (Cell × Dbl × Dbl)
  | [], _, _ => []
  | e :: t, u, v => if e.1 = u then (u, e.2.1, v) :: t else e :: hashSetRhs t u v

/-- Planner::_cell - materialise a cell in the store at `(∞, ∞)` if absent. -/
def Planner.cellGen (s : PState) (u : Cell) : PState :=
  match hashFind s.cellHash u with
  | some _ => s
  | none => { s with cellHash := (u, (Dbl.inf, Dbl.inf)) :: s.cellHash }

/-- Planner::_g - the overloaded g accessor: materialise `u`, store `value`
unless it is the `DBL_MIN` read-only sentinel, and return the g value. -/
def Planner.gAcc (s : PState) (u : Cell) (value : Dbl) : PState × Dbl :=
  let s1 := Planner.cellGen s u
  let s2 := if value ≠ DBL_MIN then { s1 with cellHash := hashSetG s1.cellHash u value } else s1
  (s2, gRead s2 u)

/-- Planner::_rhs - the overloaded rhs accessor: 0 immediately for the goal;
otherwise materialise `u`, store `value` unless it is the `DBL_MIN`
sentinel, and return the rhs value. -/
def Planner.rhsAcc (s : PState) (u : Cell) (value : Dbl) : PState × Dbl :=
  if u = s.goal then (s, Dbl.fin 0)
  else
    let s1 := Planner.cellGen s u
    let s2 := if value ≠ DBL_MIN then { s1 with cellHash := hashSetRhs s1.cellHash u value } else s1
    (s2, rhsRaw s2 u)

/-- Planner::_h - the king-move heuristic
`(√2 - 1) * min(|dx|, |dy|) + max(|dx|, |dy|)` (exact in the model, the
coordinate differences being integers). -/
def Planner.hD (a b : Cell) : Dbl :=
  let m : Int := (a.1 - b.1).natAbs
  let M : Int := (a.2 - b.2).natAbs
  let mn := if m > M then M else m
  let mx := if m > M then m else M
  Dbl.fin ((SQRT2 - FXONE) * mn + FXONE * mx)

/-- Planner::_k - the two-component key
`(min(g, rhs) + h(start, u) + km, min(g, rhs))`, with the minimum taken by
the tolerant less-than exactly as in the source. -/
def Planner.kCalc (s : PState) (u : Cell) : PState × KeyD :=
  let (s1, g) := Planner.gAcc s u DBL_MIN
  let (s2, rhs) := Planner.rhsAcc s1 u DBL_MIN
  let mn := if Math.lessB g rhs then g else rhs
  (s2, (Dbl.addD (Dbl.addD mn (Planner.hD s.start u)) s.km, mn))

/-- Planner::_cost - edge cost: `UNWALKABLE` if either endpoint is
unwalkable (exact comparison on the cost field), else the mid-point of the
two cell costs, scaled by `√2` for a diagonal step. -/
def Planner.costD (s : PState) (a b : Cell) : Dbl :=
  if s.costs a = COST_UNWALKABLE ∨ s.costs b = COST_UNWALKABLE then COST_UNWALKABLE
  else
    let dx := (a.1 - b.1).natAbs
    let dy := (a.2 - b.2).natAbs
    let scale : Dbl := if dx + dy > 1 then Dbl.fin SQRT2 else Dbl.fin FXONE
    Dbl.mulD scale (Dbl.halfD (Dbl.addD (s.costs a) (s.costs b)))

/-- Planner::KeyCompare - tolerant lexicographic order on keys. -/
def Planner.keyCompareB (p1 p2 : KeyD) : Bool :=
  if Math.lessB p1.1 p2.1 then true
  else if Math.greaterB p1.1 p2.1 then false
  else if Math.lessB p1.2 p2.2 then true
  else false

/-- Insertion into the ordered multimap backing the open list, at the upper
bound of the key (the position among tolerantly tied keys is unspecified by
the spec and unused by the theorems below). -/
def olIns : List (KeyD × Cell) → KeyD → Cell → List (KeyD × Cell)
  | [], k, u => [(k, u)]
  | e :: t, k, u => if Planner.keyCompareB k e.1 then (k, u) :: e :: t else e :: olIns t k u

/-- Erasure of the (unique) open-list entry of a cell. -/
def olDel : List (KeyD × Cell) → Cell → List (KeyD × Cell)
  | [], _ => []
  | e :: t, u => if e.2 = u then t else e :: olDel t u

/-- Membership of a cell in the open list (the `_open_hash` reverse index,
which the source keeps exactly in sync with the multimap). -/
def olContains : List (KeyD × Cell) → Cell → Bool
  | [], _ => false
  | e :: t, u => if e.2 = u then true else olContains t u

/-- Planner::_list_insert. -/
def Planner.listInsert (s : PState) (u : Cell) (k : KeyD) : PState :=
  { s with openList := olIns s.openList k u }

/-- Planner::_list_remove. -/
def Planner.listRemove (s : PState) (u : Cell) : PState :=
  { s with openList := olDel s.openList u }

/-- Planner::_list_update - erase and reinsert under the new key. -/
def Planner.listUpdate (s : PState) (u : Cell) (k : KeyD) : PState :=
  { s with openList := olIns (olDel s.openList u) k u }

/-- Planner::_update - reconcile a cell's queue membership with its local
consistency. -/
def Planner.updateVertex (s : PState) (u : Cell) : PState :=
  let (s1, g) := Planner.gAcc s u DBL_MIN
  let (s2, rhs) := Planner.rhsAcc s1 u DBL_MIN
  let diff := !Math.equalsB g rhs
  let onQ := olContains s2.openList u
  if diff && onQ then
    let (s3, k) := Planner.kCalc s2 u
    Planner.listUpdate s3 u k
  else if diff && !onQ then
    let (s3, k) := Planner.kCalc s2 u
    Planner.listInsert s3 u k
  else if !diff && onQ then
    Planner.listRemove s2 u
  else s2

/-- Modelled from the spec: Map::Cell::nbrs() - restrict a coordinate pair
to the grid, null at the boundary (map.cpp is not under src/). -/
def Map.clip (W H : Int) (c : Cell) : Option Cell :=
  if 0 ≤ c.1 ∧ c.1 < W ∧ 0 ≤ c.2 ∧ c.2 < H then some c else none

/-- Modelled from the spec: the bounded neighbour list of length
`NUM_NBRS = 8` - the king moves, null-padded at the boundary (map.cpp is
not under src/; the enumeration order is unspecified by the spec). -/
def Planner.nbrs (s : PState) (u : Cell) : List (Option Cell) :=
  [Map.clip s.W s.H (u.1 + 1, u.2), Map.clip s.W s.H (u.1 + 1, u.2 + 1),
   Map.clip s.W s.H (u.1, u.2 + 1), Map.clip s.W s.H (u.1 - 1, u.2 + 1),
   Map.clip s.W s.H (u.1 - 1, u.2), Map.clip s.W s.H (u.1 - 1, u.2 - 1),
   Map.clip s.W s.H (u.1, u.2 - 1), Map.clip s.W s.H (u.1 + 1, u.2 - 1)]

/-- The neighbour relaxation of the overconsistent branch of `_compute`
(lines 214-225): for each non-null neighbour `v ≠ goal`,
`rhs(v) := min(rhs(v), cost(v, u) + g(u))`, then `_update(v)`. -/
def Planner.relaxNbrs (s : PState) (u : Cell) : List (Option Cell) → PState
  | [] => s
  | none :: t => Planner.relaxNbrs s u t
  | some v :: t =>
      let s1 :=
        if v ≠ s.goal then
          let (sa, rv) := Planner.rhsAcc s v DBL_MIN
          let cv := Planner.costD sa v u
          let (sb, gu) := Planner.gAcc sa u DBL_MIN
          (Planner.rhsAcc sb v (Dbl.minD rv (Dbl.addD cv gu))).1
        else s
      Planner.relaxNbrs (Planner.updateVertex s1 v) u t

/-- The overconsistent branch (Case B) of `_compute` (lines 206-226):
`g(u) := rhs(u)`, remove `u` from the open list, relax the neighbours. -/
def Planner.expandOver (s : PState) (u : Cell) : PState :=
  let (s1, rhs) := Planner.rhsAcc s u DBL_MIN
  let (s2, _) := Planner.gAcc s1 u rhs
  let s3 := Planner.listRemove s2 u
  Planner.relaxNbrs s3 u (Planner.nbrs s3 u)

/-- The rhs-recompute scan of the underconsistent branch (lines 244-261):
minimum over non-null neighbours of `cost(u, v) + tmp_g`, skipping infinite
edge costs.  Dead code in the source: the break at line 242 always precedes
it (see the claim C1 theorems). -/
def Planner.nbrMinCost (s : PState) (u : Cell) (tmpg : Dbl) :
    List (Option Cell) → PState × Dbl
  | [] => (s, Dbl.inf)
  | none :: t => Planner.nbrMinCost s u tmpg t
  | some v :: t =>
      let c := Planner.costD s u v
      if Math.equalsB c Dbl.inf then Planner.nbrMinCost s u tmpg t
      else
        let tc := Dbl.addD c tmpg
        let (s1, m) := Planner.nbrMinCost s u tmpg t
        (s1, if Math.lessB tc m then tc else m)

/-- The closing `_update` cascade shared by the underconsistent branch
(lines 265-273): `_update(u)`, then `_update` of every non-null neighbour. -/
def Planner.updateNbrs (s : PState) : List (Option Cell) → PState
  | [] => s
  | none :: t => Planner.updateNbrs s t
  | some v :: t => Planner.updateNbrs (Planner.updateVertex s v) t

/-- The loop guard of `_compute` (line 192), with C++ precedence and
short-circuit evaluation:
`(!empty && keyCompare(top, k(start))) || !equals(rhs(start), g(start))`.
The returned state carries the materialisations the guard's accessor calls
perform. -/
def Planner.loopGuard (s : PState) : PState × Bool :=
  match s.openList with
  | [] =>
      let (s1, rhs) := Planner.rhsAcc s s.start DBL_MIN
      let (s2, g) := Planner.gAcc s1 s.start DBL_MIN
      (s2, !Math.equalsB rhs g)
  | (k0, _) :: _ =>
      let (s1, ks) := Planner.kCalc s s.start
      if Planner.keyCompareB k0 ks then (s1, true)
      else
        let (s2, rhs) := Planner.rhsAcc s1 s.start DBL_MIN
        let (s3, g) := Planner.gAcc s2 s.start DBL_MIN
        (s3, !Math.equalsB rhs g)

/-- Planner::MAX_STEPS - the attempts cap of the repair loop. -/
def Planner.MAX_STEPS : Nat := 1000000

/-- One iteration of the repair loop of `_compute` (lines 198-274), with
the loop continuation abstracted as `recur`.  Reading the top of an empty
open list (line 198, reachable because of the C++ precedence of the guard)
is `Outcome.emptyPeek`.  The break at line 242 leaves the loop and reaches
the final `return true`. -/
def Planner.computeIter (s : PState) (recur : PState → Outcome (Bool × PState)) :
    Outcome (Bool × PState) :=
  match s.openList with
  | [] => Outcome.emptyPeek
  | (kOld, u) :: _ =>
    let kp := Planner.kCalc s u
    let s1 := kp.1
    let kNew := kp.2
    if Planner.keyCompareB kOld kNew then
      recur (Planner.listUpdate s1 u kNew)
    else
      let gq := Planner.gAcc s1 u DBL_MIN
      let rq := Planner.rhsAcc gq.1 u DBL_MIN
      if Math.greaterB gq.2 rq.2 then
        recur (Planner.expandOver rq.1 u)
      else
        let s4 := (Planner.gAcc rq.1 u DBL_MIN).1
        let s5 := (Planner.gAcc s4 u Dbl.inf).1
        let ns := Planner.nbrs s5 u
        if u ≠ s5.goal then
          let tq := Planner.gAcc s5 u DBL_MIN
          if Math.equalsB tq.2 Dbl.inf then
            Outcome.ok (true, tq.1)
          else
            let mq := Planner.nbrMinCost tq.1 u tq.2 ns
            let s8 := (Planner.rhsAcc mq.1 u mq.2).1
            recur (Planner.updateNbrs (Planner.updateVertex s8 u) ns)
        else
          recur (Planner.updateNbrs (Planner.updateVertex s5 u) ns)

/-- The repair loop of `_compute` (lines 192-275): evaluate the guard (with
its materialising accessor side effects); exit with true when the guard is
false; with the guard true, a zero remaining budget is exactly the
`++attempts > MAX_STEPS` failure (line 195), otherwise run one iteration
with the remaining budget. -/
def Planner.computeLoop : Nat → PState → Outcome (Bool × PState)
  | fuel, s0 =>
    let gp := Planner.loopGuard s0
    if gp.2 then
      match fuel with
      | 0 => Outcome.ok (false, gp.1)
      | fuel + 1 => Planner.computeIter gp.1 (fun t => Planner.computeLoop fuel t)
    else Outcome.ok (true, gp.1)

/-- Planner::_compute - empty-queue early return (line 179), then the
repair loop. -/
def Planner.compute (s : PState) : Outcome (Bool × PState) :=
  match s.openList with
  | [] => Outcome.ok (false, s)
  | _ => Planner.computeLoop Planner.MAX_STEPS s

/-- The scan of Planner::_min_succ over the neighbour list, carrying the
current best cell and cost. -/
def Planner.minSuccLoop (s : PState) (u : Cell) (best : Option Cell) (bestCost : Dbl) :
    List (Option Cell) → PState × Option Cell
  | [] => (s, best)
  | none :: t => Planner.minSuccLoop s u best bestCost t
  | some v :: t =>
      let c := Planner.costD s u v
      let (s1, g) := Planner.gAcc s v DBL_MIN
      if Math.equalsB c Dbl.inf || Math.equalsB g Dbl.inf then
        Planner.minSuccLoop s1 u best bestCost t
      else
        let tc := Dbl.addD c g
        if Math.lessB tc bestCost then Planner.minSuccLoop s1 u (some v) tc t
        else Planner.minSuccLoop s1 u best bestCost t

/-- Planner::_min_succ - the minimum-cost successor of `u` (null when no
neighbour has finite edge cost and finite g). -/
def Planner.minSucc (s : PState) (u : Cell) : PState × Option Cell :=
  Planner.minSuccLoop s u none Dbl.inf (Planner.nbrs s u)

/-- The path-extraction walk of replan (lines 104-112).  The C++ loop is
unbounded; exceeding the model fuel is `Outcome.fuelOut`. -/
def Planner.walkLoop : Nat → PState → Option Cell → Outcome (Bool × PState)
  | fuel, s, cur =>
    if cur = some s.goal then Outcome.ok (true, s)
    else
      match fuel with
      | 0 => Outcome.fuelOut
      | fuel + 1 =>
        match cur with
        | none => Outcome.ok (false, s)
        | some c =>
          let gq := Planner.gAcc s c DBL_MIN
          if Math.equalsB gq.2 Dbl.inf then Outcome.ok (false, gq.1)
          else
            let mq := Planner.minSucc gq.1 c
            Planner.walkLoop fuel { mq.1 with path := mq.1.path ++ [mq.2] } mq.2

/-- Planner::replan - clear the path, run `_compute`, then follow the
least-cost successors from the start, appending to the path. -/
def Planner.replan (s : PState) : Outcome (Bool × PState) :=
  let s0 := { s with path := ([] : List (Option Cell)) }
  match Planner.compute s0 with
  | Outcome.emptyPeek => Outcome.emptyPeek
  | Outcome.fuelOut => Outcome.fuelOut
  | Outcome.ok (false, s1) => Outcome.ok (false, s1)
  | Outcome.ok (true, s1) =>
      Planner.walkLoop Planner.MAX_STEPS
        { s1 with path := [some s1.start] } (some s1.start)

/-- Planner::update - the public cost-change notification: ignored for the
goal; otherwise advance `km`, materialise the cell, assign the new cost and
reconcile with `_update`. -/
def Planner.update (s : PState) (u : Cell) (cost : Dbl) : PState :=
  if u = s.goal then s
  else
    let s1 := { s with km := Dbl.addD s.km (Planner.hD s.last s.start), last := s.start }
    let s2 := Planner.cellGen s1 u
    let s3 := { s2 with costs := fun v => if v = u then cost else s2.costs v }
    Planner.updateVertex s3 u

/-- Planner::start with an argument - the start setter. -/
def Planner.setStart (s : PState) (u : Cell) : PState := { s with start := u }

/-- Planner::Planner - construction: clear the lists, zero `km`, anchor
`last` at the start, pin `rhs(goal)` (a no-op store-wise, by the goal early
return of `_rhs`), and queue the goal under `_k(goal)`. -/
def Planner.init (W H : Int) (costs : Cell → Dbl) (start goal : Cell) : PState :=
  let s : PState := { W := W, H := H, costs := costs, start := start, goal := goal,
                      last := start, km := Dbl.fin 0,
                      cellHash := [], openList := [], path := [] }
  let s1 := (Planner.rhsAcc s goal (Dbl.fin 0)).1
  let (s2, kg) := Planner.kCalc s1 goal
  Planner.listInsert s2 goal kg

/-- Projection of a run result to its observables: the success flag and the
path buffer. -/
def resProj : Outcome (Bool × PState) → Outcome (Bool × List (Option Cell))
  | Outcome.ok (b, s) => Outcome.ok (b, s.path)
  | Outcome.emptyPeek => Outcome.emptyPeek
  | Outcome.fuelOut => Outcome.fuelOut

/-- The state a run result leaves behind (the given default when the run
left the model). -/
def outState (dflt : PState) : Outcome (Bool × PState) → PState
  | Outcome.ok (_, s) => s
  | _ => dflt

/-- The path buffer with the clearing replan begins with (line 88). -/
def clearPath (s : PState) : PState := { s with path := ([] : List (Option Cell)) }

/-- Uniform unit-cost field for the concrete scenarios. -/
def costsOne : Cell → Dbl := fun _ => Dbl.fin FXONE

/-- Unit costs except an unwalkable middle cell. -/
def costsWall : Cell → Dbl := fun c => if c = ((1 : Int), (0 : Int)) then Dbl.inf else Dbl.fin FXONE

/-- A freshly constructed planner on a 3-by-1 corridor, start at the left
end, goal at the right end. -/
def sLine3 : PState := Planner.init 3 1 costsOne (0, 0) (2, 0)

/-- A freshly constructed planner on the corridor with the start in the
middle: here a successful replan leaves the far cell on the open list. -/
def sMid3 : PState := Planner.init 3 1 costsOne (1, 0) (2, 0)

/-- The corridor with its middle cell unwalkable: the goal is unreachable
from the start. -/
def sWall3 : PState := Planner.init 3 1 costsWall (0, 0) (2, 0)

/-- The state the first repair run on `sLine3` ends in. -/
def SA1 : PState := outState sLine3 (Planner.computeLoop 8 { sLine3 with path := ([] : List (Option Cell)) })

/-- The state the first replan on `sLine3` ends in: the walk of the
extracted path applied after the repair run. -/
def SA2 : PState :=
  outState SA1 (Planner.walkLoop 4 { SA1 with path := [some SA1.start] } (some SA1.start))

/-- The state the first repair run on `sMid3` ends in. -/
def SB1 : PState := outState sMid3 (Planner.computeLoop 8 { sMid3 with path := ([] : List (Option Cell)) })

/-- The state the first replan on `sMid3` ends in. -/
def SB2 : PState :=
  outState SB1 (Planner.walkLoop 3 { SB1 with path := [some SB1.start] } (some SB1.start))

/-- The state the repair run on `sWall3` ends in. -/
def SC1 : PState := outState sWall3 (Planner.computeLoop 8 { sWall3 with path := ([] : List (Option Cell)) })

/-- The state the (failing) replan on `sWall3` ends in. -/
def SC2 : PState :=
  outState SC1 (Planner.walkLoop 2 { SC1 with path := [some SC1.start] } (some SC1.start))

/-- A planner state with an underconsistent cell at the top of the open
list, exercising Case C of the repair loop: cell (1,0) has g = 1 < rhs = 5
and carries its fresh key, the goal has committed g = 0. -/
def cUnder : PState :=
  { W := 3, H := 1, costs := costsOne,
    start := ((0 : Int), (0 : Int)), goal := ((2 : Int), (0 : Int)), last := ((0 : Int), (0 : Int)),
    km := Dbl.fin 0,
    cellHash := [(((1 : Int), (0 : Int)), Dbl.fin FXONE, Dbl.fin (5 * FXONE)),
                 (((2 : Int), (0 : Int)), Dbl.fin 0, Dbl.inf)],
    openList := [((Dbl.fin 200000000, Dbl.fin 100000000), ((1 : Int), (0 : Int)))],
    path := [] }

/-- The state one repair iteration on `cUnder` ends in (through the break
of the underconsistent branch). -/
def cUnderOut : PState := outState cUnder (Planner.computeLoop 2 cUnder)

/-- A bare planner state whose store is empty, with start equal to goal. -/
def sBare : PState :=
  { W := 1, H := 1, costs := costsOne, start := ((0 : Int), (0 : Int)),
    goal := ((0 : Int), (0 : Int)), last := ((0 : Int), (0 : Int)), km := Dbl.fin 0,
    cellHash := [], openList := [], path := [] }

/-- The corridor state after raising the middle cell to UNWALKABLE and
lowering it back to its original cost, following the successful first
replan. -/
def SA3 : PState :=
  Planner.update (Planner.update SA2 ((1 : Int), (0 : Int)) COST_UNWALKABLE)
    ((1 : Int), (0 : Int)) (Dbl.fin FXONE)

/-- The state after the write path of the g accessor: materialise, then
overwrite the stored g component. -/
def Planner.gWrite (s : PState) (u : Cell) (x : Dbl) : PState :=
  { Planner.cellGen s u with cellHash := hashSetG (Planner.cellGen s u).cellHash u x }

/-- The state after the write path of the rhs accessor (never reached for
the goal). -/
def Planner.rhsWrite (s : PState) (u : Cell) (x : Dbl) : PState :=
  { Planner.cellGen s u with cellHash := hashSetRhs (Planner.cellGen s u).cellHash u x }

/-- The key of a cell as a pure function of the current reads: the value
`_k` returns. -/
def kPure (s : PState) (u : Cell) : KeyD :=
  let g := gRead s u
  let rhs := rhsRead s u
  let mn := if Math.lessB g rhs then g else rhs
  (Dbl.addD (Dbl.addD mn (Planner.hD s.start u)) s.km, mn)

/-- The value of the repair-loop guard as a pure function of the current
reads: with a non-empty queue, top key tolerantly below k(start), or
rhs(start) tolerantly different from g(start); with an empty queue, only
the latter (the C++ short circuit skips the key comparison). -/
def guardPure (s : PState) : Bool :=
  match s.openList with
  | [] => !Math.equalsB (rhsRead s s.start) (gRead s s.start)
  | (k0, _) :: _ =>
      Planner.keyCompareB k0 (kPure s s.start) ||
        !Math.equalsB (rhsRead s s.start) (gRead s s.start)

/-- Core read-equivalence of two planner states: identical map, anchors,
km and open list, pointwise equal costs and g / stored-rhs reads - the
states may differ only in the materialisation footprint of the store and
in the path buffer. -/
structure ReadEqCore (s t : PState) : Prop where
  hW : s.W = t.W
  hH : s.H = t.H
  hstart : s.start = t.start
  hgoal : s.goal = t.goal
  hlast : s.last = t.last
  hkm : s.km = t.km
  hopen : s.openList = t.openList
  hcosts : ∀ v, s.costs v = t.costs v
  hg : ∀ v, gRead s v = gRead t v
  hrhs : ∀ v, rhsRaw s v = rhsRaw t v

/-- The quiescent-state invariant of the planner.  `main` is the queue
correspondence of the claims: a cell is on the open list exactly when its
g and rhs reads differ under the tolerant equality (`_update`'s own test).
The remaining fields are the value-range facts that keep every stored
value clear of the `DBL_MIN` read-only sentinel of the accessors and make
the correspondence self-preserving: stored rhs values of non-goal cells
are infinite or at least one (the cost lower bound of every spec
scenario), g values are infinite or non-negative, a finite g forces a
finite stored rhs, costs are unwalkable or at least one, and the open
list holds each cell at most once (the `_open_hash` uniqueness). -/
structure PInv (s : PState) : Prop where
  main : ∀ u, olContains s.openList u = !Math.equalsB (gRead s u) (rhsRead s u)
  fing : ∀ u, u ≠ s.goal → gRead s u ≠ Dbl.inf → rhsRaw s u ≠ Dbl.inf
  rhsB : ∀ u, u ≠ s.goal → rhsRaw s u = Dbl.inf ∨
    ∃ n : Int, rhsRaw s u = Dbl.fin n ∧ FXONE ≤ n
  gB : ∀ u, gRead s u = Dbl.inf ∨ ∃ n : Int, gRead s u = Dbl.fin n ∧ 0 ≤ n
  costB : ∀ v, s.costs v = COST_UNWALKABLE ∨
    ∃ n : Int, s.costs v = Dbl.fin n ∧ FXONE ≤ n
  nd : (s.openList.map (fun e => e.2)).Nodup

/-- The planner states reachable through the public interface from a fresh
construction: the constructor, cost notifications, start moves, and
successful or failed replans.  Costs are unwalkable or at least `1.0`, as
in every scenario of the spec.  The goal setter is excluded: per the spec
(section 4.6) a goal change requires reconstructing the planner. -/
inductive Reachable : PState → Prop where
  | init : ∀ (W H : Int) (costs : Cell → Dbl) (start goal : Cell),
      (∀ v, costs v = COST_UNWALKABLE ∨ ∃ n : Int, costs v = Dbl.fin n ∧ FXONE ≤ n) →
      Reachable (Planner.init W H costs start goal)
  | update : ∀ (s : PState) (u : Cell) (c : Dbl), Reachable s →
      (c = COST_UNWALKABLE ∨ ∃ n : Int, c = Dbl.fin n ∧ FXONE ≤ n) →
      Reachable (Planner.update s u c)
  | setStart : ∀ (s : PState) (u : Cell), Reachable s →
      Reachable (Planner.setStart s u)
  | replan : ∀ (s : PState) (b : Bool) (w : PState), Reachable s →
      Planner.replan s = Outcome.ok (b, w) → Reachable w

/-- Unfolding of the repair loop at budget zero. -/
theorem Planner.computeLoop_zero (s0 : PState) :
    Planner.computeLoop 0 s0 =
      (if (Planner.loopGuard s0).2 then Outcome.ok (false, (Planner.loopGuard s0).1)
       else Outcome.ok (true, (Planner.loopGuard s0).1)) := rfl

/-- Unfolding of the repair loop at a successor budget. -/
theorem Planner.computeLoop_succ (n : Nat) (s0 : PState) :
    Planner.computeLoop (n + 1) s0 =
      (if (Planner.loopGuard s0).2 then
        Planner.computeIter (Planner.loopGuard s0).1 (fun t => Planner.computeLoop n t)
       else Outcome.ok (true, (Planner.loopGuard s0).1)) := rfl

/-- With a false guard the repair loop exits at once with true, whatever the
remaining budget. -/
theorem Planner.computeLoop_guard_false {s0 : PState}
    (h : (Planner.loopGuard s0).2 = false) (m : Nat) :
    Planner.computeLoop m s0 = Outcome.ok (true, (Planner.loopGuard s0).1) := by
  cases m with
  | zero => rw [Planner.computeLoop_zero, h]; simp
  | succ m => rw [Planner.computeLoop_succ, h]; simp

/-- One loop iteration is monotone in the continuation, on results that are
not the budget-exhaustion failure. -/
theorem Planner.computeIter_mono {s : PState} {f g : PState → Outcome (Bool × PState)}
    {r : Outcome (Bool × PState)}
    (hfg : ∀ t r', f t = r' → (∀ t', r' ≠ Outcome.ok (false, t')) → g t = r')
    (h : Planner.computeIter s f = r) (hr : ∀ t, r ≠ Outcome.ok (false, t)) :
    Planner.computeIter s g = r := by
  unfold Planner.computeIter at h ⊢
  cases hOL : s.openList with
  | nil => simp only [hOL] at h ⊢; exact h
  | cons e rest =>
    obtain ⟨kOld, u⟩ := e
    simp only [hOL] at h ⊢
    split_ifs at h ⊢ <;> first
      | exact h
      | exact hfg _ _ h hr

/-- A repair-loop run that does not end in budget exhaustion is stable under
enlarging the budget: the small-budget result is the `MAX_STEPS` result. -/
theorem Planner.computeLoop_mono {n : Nat} : ∀ {m : Nat}, n ≤ m → ∀ {s : PState}
    {r : Outcome (Bool × PState)}, Planner.computeLoop n s = r →
    (∀ t, r ≠ Outcome.ok (false, t)) → Planner.computeLoop m s = r := by
  induction n with
  | zero =>
    intro m _ s r h0 hr
    rw [Planner.computeLoop_zero] at h0
    by_cases hg : (Planner.loopGuard s).2 = true
    · rw [if_pos hg] at h0
      exact absurd h0.symm (hr _)
    · rw [if_neg hg] at h0; subst h0
      simp only [Bool.not_eq_true] at hg
      exact Planner.computeLoop_guard_false hg m
  | succ n ih =>
    intro m hm s r h0 hr
    cases m with
    | zero => exact absurd hm (by omega)
    | succ m =>
      rw [Planner.computeLoop_succ] at h0 ⊢
      by_cases hg : (Planner.loopGuard s).2 = true
      · rw [if_pos hg] at h0 ⊢
        exact Planner.computeIter_mono
          (fun t r' ht hr' => ih (Nat.le_of_succ_le_succ hm) ht hr') h0 hr
      · rw [if_neg hg] at h0 ⊢; exact h0

/-- The extraction walk at the goal returns true at once, whatever the
fuel. -/
theorem Planner.walkLoop_at_goal {s : PState} {cur : Option Cell}
    (h : cur = some s.goal) (m : Nat) :
    Planner.walkLoop m s cur = Outcome.ok (true, s) := by
  cases m <;> (unfold Planner.walkLoop; rw [if_pos h])

/-- A walk that did not run out of model fuel is stable under enlarging the
fuel. -/
theorem Planner.walkLoop_mono {n : Nat} : ∀ {m : Nat}, n ≤ m →
    ∀ {s : PState} {cur : Option Cell} {r : Outcome (Bool × PState)},
    Planner.walkLoop n s cur = r → r ≠ Outcome.fuelOut →
    Planner.walkLoop m s cur = r := by
  induction n with
  | zero =>
    intro m _ s cur r h0 hr
    unfold Planner.walkLoop at h0
    by_cases hc : cur = some s.goal
    · rw [if_pos hc] at h0; subst h0; exact Planner.walkLoop_at_goal hc m
    · rw [if_neg hc] at h0; exact absurd h0.symm hr
  | succ n ih =>
    intro m hm s cur r h0 hr
    cases m with
    | zero => exact absurd hm (by omega)
    | succ m =>
      unfold Planner.walkLoop at h0 ⊢
      by_cases hc : cur = some s.goal
      · rw [if_pos hc] at h0 ⊢; exact h0
      · rw [if_neg hc] at h0 ⊢
        cases cur with
        | none => exact h0
        | some c =>
          simp only at h0 ⊢
          split_ifs at h0 ⊢ with h1
          · exact h0
          · exact ih (Nat.le_of_succ_le_succ hm) h0 hr


/-- Evaluation scheme for a replan call: with a non-empty open list, a
small-budget repair run ending in success and a fuel-bounded walk determine
the result of the full call with its `MAX_STEPS` budgets. -/
theorem Planner.replan_eval {s s1 : PState} {r : Outcome (Bool × PState)} {n k : Nat}
    (hn : n ≤ Planner.MAX_STEPS) (hk : k ≤ Planner.MAX_STEPS)
    (hOL : s.openList ≠ [])
    (hc : Planner.computeLoop n { s with path := ([] : List (Option Cell)) } =
      Outcome.ok (true, s1))
    (hw : Planner.walkLoop k { s1 with path := [some s1.start] } (some s1.start) = r)
    (hr : r ≠ Outcome.fuelOut) :
    Planner.replan s = r := by
  have hc' := Planner.computeLoop_mono hn hc (by simp)
  have hw' := Planner.walkLoop_mono hk hw hr
  unfold Planner.replan Planner.compute
  cases hO : ({ s with path := ([] : List (Option Cell)) } : PState).openList with
  | nil => exact absurd hO hOL
  | cons a l =>
    rw [hO] at hc'
    simp only [hO, hc', hw']

/-- A replan that begins with an empty open list fails at the empty-queue
early return of `_compute`, leaving the cleared path. -/
theorem Planner.replan_empty {s : PState} (h : s.openList = []) :
    Planner.replan s = Outcome.ok (false, { s with path := ([] : List (Option Cell)) }) := by
  unfold Planner.replan Planner.compute
  simp only [h]

/-- Materialising never changes the g a read yields. -/
theorem gRead_cellGen (s : PState) (u v : Cell) :
    gRead (Planner.cellGen s u) v = gRead s v := by
  unfold Planner.cellGen
  cases h : hashFind s.cellHash u with
  | some p => rfl
  | none =>
    unfold gRead
    simp only
    by_cases hv : v = u
    · subst hv; rw [hashFind, if_pos rfl, h]; rfl
    · rw [hashFind, if_neg (fun he => hv he.symm)]

/-- Materialising never changes the stored rhs a read yields. -/
theorem rhsRaw_cellGen (s : PState) (u v : Cell) :
    rhsRaw (Planner.cellGen s u) v = rhsRaw s v := by
  unfold Planner.cellGen
  cases h : hashFind s.cellHash u with
  | some p => rfl
  | none =>
    unfold rhsRaw
    simp only
    by_cases hv : v = u
    · subst hv; rw [hashFind, if_pos rfl, h]; rfl
    · rw [hashFind, if_neg (fun he => hv he.symm)]

/-- Materialising touches only the store. -/
theorem cellGen_fields (s : PState) (u : Cell) :
    (Planner.cellGen s u).W = s.W ∧ (Planner.cellGen s u).H = s.H ∧
    (Planner.cellGen s u).costs = s.costs ∧ (Planner.cellGen s u).start = s.start ∧
    (Planner.cellGen s u).goal = s.goal ∧ (Planner.cellGen s u).last = s.last ∧
    (Planner.cellGen s u).km = s.km ∧ (Planner.cellGen s u).openList = s.openList ∧
    (Planner.cellGen s u).path = s.path := by
  unfold Planner.cellGen
  cases hashFind s.cellHash u <;> simp

/-- Materialising twice is materialising once. -/
theorem cellGen_idem (s : PState) (u : Cell) :
    Planner.cellGen (Planner.cellGen s u) u = Planner.cellGen s u := by
  unfold Planner.cellGen
  cases h : hashFind s.cellHash u with
  | some p => simp only [h]
  | none => simp [hashFind]

/-- The get form of the g accessor: materialise and read. -/
theorem Planner.gAcc_get (s : PState) (u : Cell) :
    Planner.gAcc s u DBL_MIN = (Planner.cellGen s u, gRead s u) := by
  unfold Planner.gAcc
  simp [gRead_cellGen]

/-- The get form of the rhs accessor on a non-goal cell. -/
theorem Planner.rhsAcc_get_ne {s : PState} {u : Cell} (h : u ≠ s.goal) :
    Planner.rhsAcc s u DBL_MIN = (Planner.cellGen s u, rhsRaw s u) := by
  unfold Planner.rhsAcc
  rw [if_neg h]
  simp [rhsRaw_cellGen]

/-- The rhs accessor on the goal: any call returns 0 and leaves the state
alone. -/
theorem Planner.rhsAcc_goal {s : PState} {u : Cell} (h : u = s.goal) (v : Dbl) :
    Planner.rhsAcc s u v = (s, Dbl.fin 0) := by
  unfold Planner.rhsAcc
  rw [if_pos h]

/-- The value component of an rhs get is the pinned read. -/
theorem Planner.rhsAcc_get_val (s : PState) (u : Cell) :
    (Planner.rhsAcc s u DBL_MIN).2 = rhsRead s u := by
  by_cases h : u = s.goal
  · rw [Planner.rhsAcc_goal h, rhsRead, if_pos h]
  · rw [Planner.rhsAcc_get_ne h, rhsRead, if_neg h]

/-- The state component of an rhs get. -/
theorem Planner.rhsAcc_get_st (s : PState) (u : Cell) :
    (Planner.rhsAcc s u DBL_MIN).1 = if u = s.goal then s else Planner.cellGen s u := by
  by_cases h : u = s.goal
  · rw [Planner.rhsAcc_goal h, if_pos h]
  · rw [Planner.rhsAcc_get_ne h, if_neg h]

/-- Lookup after an in-place g overwrite. -/
theorem hashFind_setG (h : List (Cell × Dbl × Dbl)) (u : Cell) (x : Dbl) (v : Cell) :
    hashFind (hashSetG h u x) v =
      if v = u then (hashFind h u).map (fun p => (x, p.2)) else hashFind h v := by
  induction h with
  | nil => simp [hashSetG, hashFind]
  | cons e t ih =>
    unfold hashSetG hashFind
    by_cases he : e.1 = u
    · by_cases hv : v = u
      · simp_all [hashFind]
      · have huv : u ≠ v := fun h => hv h.symm
        simp_all [hashFind]
    · by_cases hv : v = u
      · subst hv; simp_all [hashFind]
      · by_cases hev : e.1 = v <;> simp_all [hashFind]

/-- Lookup after an in-place rhs overwrite. -/
theorem hashFind_setRhs (h : List (Cell × Dbl × Dbl)) (u : Cell) (x : Dbl) (v : Cell) :
    hashFind (hashSetRhs h u x) v =
      if v = u then (hashFind h u).map (fun p => (p.1, x)) else hashFind h v := by
  induction h with
  | nil => simp [hashSetRhs, hashFind]
  | cons e t ih =>
    unfold hashSetRhs hashFind
    by_cases he : e.1 = u
    · by_cases hv : v = u
      · simp_all [hashFind]
      · have huv : u ≠ v := fun h => hv h.symm
        simp_all [hashFind]
    · by_cases hv : v = u
      · subst hv; simp_all [hashFind]
      · by_cases hev : e.1 = v <;> simp_all [hashFind]

/-- After materialising, the store holds exactly the read values. -/
theorem hashFind_cellGen_self (s : PState) (u : Cell) :
    hashFind (Planner.cellGen s u).cellHash u = some (gRead s u, rhsRaw s u) := by
  unfold Planner.cellGen gRead rhsRaw
  cases h : hashFind s.cellHash u with
  | some p => simp [h]
  | none => simp [h, hashFind]

/-- Materialising one cell leaves the lookup of any other unchanged. -/
theorem hashFind_cellGen_ne {v u : Cell} (hv : v ≠ u) (s : PState) :
    hashFind (Planner.cellGen s u).cellHash v = hashFind s.cellHash v := by
  unfold Planner.cellGen
  cases h : hashFind s.cellHash u with
  | some p => rfl
  | none =>
    simp only
    rw [hashFind, if_neg (fun he => hv he.symm)]

/-- Reads after a g overwrite. -/
theorem gRead_gWrite (s : PState) (u : Cell) (x : Dbl) (v : Cell) :
    gRead (Planner.gWrite s u x) v = if v = u then x else gRead s v := by
  unfold Planner.gWrite gRead
  simp only [hashFind_setG]
  by_cases hv : v = u
  · subst hv
    simp [hashFind_cellGen_self]
  · rw [if_neg hv, if_neg hv, hashFind_cellGen_ne hv]

/-- The stored rhs is untouched by a g overwrite. -/
theorem rhsRaw_gWrite (s : PState) (u : Cell) (x : Dbl) (v : Cell) :
    rhsRaw (Planner.gWrite s u x) v = rhsRaw s v := by
  unfold Planner.gWrite rhsRaw
  simp only [hashFind_setG]
  by_cases hv : v = u
  · subst hv
    simp [hashFind_cellGen_self, gRead, rhsRaw]
  · rw [if_neg hv, hashFind_cellGen_ne hv]

/-- The stored g is untouched by an rhs overwrite. -/
theorem gRead_rhsWrite (s : PState) (u : Cell) (x : Dbl) (v : Cell) :
    gRead (Planner.rhsWrite s u x) v = gRead s v := by
  unfold Planner.rhsWrite gRead
  simp only [hashFind_setRhs]
  by_cases hv : v = u
  · subst hv
    simp [hashFind_cellGen_self, gRead, rhsRaw]
  · rw [if_neg hv, hashFind_cellGen_ne hv]

/-- Reads after an rhs overwrite. -/
theorem rhsRaw_rhsWrite (s : PState) (u : Cell) (x : Dbl) (v : Cell) :
    rhsRaw (Planner.rhsWrite s u x) v = if v = u then x else rhsRaw s v := by
  unfold Planner.rhsWrite rhsRaw
  simp only [hashFind_setRhs]
  by_cases hv : v = u
  · subst hv
    simp [hashFind_cellGen_self]
  · rw [if_neg hv, if_neg hv, hashFind_cellGen_ne hv]

/-- A g overwrite touches only the store. -/
theorem gWrite_fields (s : PState) (u : Cell) (x : Dbl) :
    (Planner.gWrite s u x).W = s.W ∧ (Planner.gWrite s u x).H = s.H ∧
    (Planner.gWrite s u x).costs = s.costs ∧ (Planner.gWrite s u x).start = s.start ∧
    (Planner.gWrite s u x).goal = s.goal ∧ (Planner.gWrite s u x).last = s.last ∧
    (Planner.gWrite s u x).km = s.km ∧ (Planner.gWrite s u x).openList = s.openList ∧
    (Planner.gWrite s u x).path = s.path := by
  unfold Planner.gWrite
  have hf := cellGen_fields s u
  simp only
  exact ⟨hf.1, hf.2.1, hf.2.2.1, hf.2.2.2.1, hf.2.2.2.2.1, hf.2.2.2.2.2.1,
    hf.2.2.2.2.2.2.1, hf.2.2.2.2.2.2.2.1, hf.2.2.2.2.2.2.2.2⟩

/-- An rhs overwrite touches only the store. -/
theorem rhsWrite_fields (s : PState) (u : Cell) (x : Dbl) :
    (Planner.rhsWrite s u x).W = s.W ∧ (Planner.rhsWrite s u x).H = s.H ∧
    (Planner.rhsWrite s u x).costs = s.costs ∧ (Planner.rhsWrite s u x).start = s.start ∧
    (Planner.rhsWrite s u x).goal = s.goal ∧ (Planner.rhsWrite s u x).last = s.last ∧
    (Planner.rhsWrite s u x).km = s.km ∧ (Planner.rhsWrite s u x).openList = s.openList ∧
    (Planner.rhsWrite s u x).path = s.path := by
  unfold Planner.rhsWrite
  have hf := cellGen_fields s u
  simp only
  exact ⟨hf.1, hf.2.1, hf.2.2.1, hf.2.2.2.1, hf.2.2.2.2.1, hf.2.2.2.2.2.1,
    hf.2.2.2.2.2.2.1, hf.2.2.2.2.2.2.2.1, hf.2.2.2.2.2.2.2.2⟩

/-- The set form of the g accessor. -/
theorem Planner.gAcc_set {x : Dbl} (hx : x ≠ DBL_MIN) (s : PState) (u : Cell) :
    Planner.gAcc s u x = (Planner.gWrite s u x, x) := by
  unfold Planner.gAcc
  simp only [if_pos hx]
  show (Planner.gWrite s u x, gRead (Planner.gWrite s u x) u) = (Planner.gWrite s u x, x)
  rw [gRead_gWrite, if_pos rfl]

/-- The set form of the rhs accessor on a non-goal cell. -/
theorem Planner.rhsAcc_set {x : Dbl} (hx : x ≠ DBL_MIN) {s : PState} {u : Cell}
    (hu : u ≠ s.goal) :
    Planner.rhsAcc s u x = (Planner.rhsWrite s u x, x) := by
  unfold Planner.rhsAcc
  rw [if_neg hu]
  simp only [if_pos hx]
  show (Planner.rhsWrite s u x, rhsRaw (Planner.rhsWrite s u x) u) = (Planner.rhsWrite s u x, x)
  rw [rhsRaw_rhsWrite, if_pos rfl]

/-- Combined get form of the rhs accessor. -/
theorem Planner.rhsAcc_get (s : PState) (u : Cell) :
    Planner.rhsAcc s u DBL_MIN =
      ((if u = s.goal then s else Planner.cellGen s u), rhsRead s u) := by
  by_cases h : u = s.goal
  · rw [Planner.rhsAcc_goal h, if_pos h, rhsRead, if_pos h]
  · rw [Planner.rhsAcc_get_ne h, if_neg h, rhsRead, if_neg h]

/-- The pinned rhs read is stable under materialisation. -/
theorem rhsRead_cellGen (s : PState) (u v : Cell) :
    rhsRead (Planner.cellGen s u) v = rhsRead s v := by
  unfold rhsRead
  rw [(cellGen_fields s u).2.2.2.2.1, rhsRaw_cellGen]

/-- The g read is stable under materialisation, any cell. -/
theorem gRead_cellGen' (s : PState) (u v : Cell) :
    gRead (Planner.cellGen s u) v = gRead s v := gRead_cellGen s u v

/-- The key calculation: materialise the cell, return the pure key. -/
theorem Planner.kCalc_eq (s : PState) (u : Cell) :
    Planner.kCalc s u = (Planner.cellGen s u, kPure s u) := by
  unfold Planner.kCalc kPure
  rw [Planner.gAcc_get]
  simp only
  rw [Planner.rhsAcc_get]
  simp only [(cellGen_fields s u).2.2.2.2.1, rhsRead_cellGen]
  by_cases h : u = s.goal
  · rw [if_pos h]
  · rw [if_neg h, cellGen_idem]

/-- The loop guard: materialise the start cell, return the pure guard
value. -/
theorem Planner.loopGuard_eq (s : PState) :
    Planner.loopGuard s = (Planner.cellGen s s.start, guardPure s) := by
  unfold Planner.loopGuard guardPure
  cases hO : s.openList with
  | nil =>
    rw [Planner.rhsAcc_get]
    simp only
    by_cases h : s.start = s.goal
    · rw [if_pos h, Planner.gAcc_get]
    · rw [if_neg h, Planner.gAcc_get]
      simp only [cellGen_idem, gRead_cellGen]
  | cons e rest =>
    obtain ⟨k0, w⟩ := e
    rw [Planner.kCalc_eq]
    simp only
    by_cases hk : Planner.keyCompareB k0 (kPure s s.start)
    · rw [if_pos hk, hk]
      simp
    · rw [if_neg hk]
      rw [Planner.rhsAcc_get]
      simp only [(cellGen_fields s s.start).2.2.2.2.1, rhsRead_cellGen]
      have hk' : Planner.keyCompareB k0 (kPure s s.start) = false := by
        simpa using hk
      rw [hk']
      simp only [Bool.false_or]
      by_cases h : s.start = s.goal
      · rw [if_pos h, Planner.gAcc_get]
        simp only [cellGen_idem, gRead_cellGen]
      · rw [if_neg h, Planner.gAcc_get]
        simp only [cellGen_idem, gRead_cellGen]

/-- The repair run on the corridor succeeds within 8 attempts. -/
theorem sLine3_compute :
    Planner.computeLoop 8 { sLine3 with path := ([] : List (Option Cell)) } =
      Outcome.ok (true, SA1) := rfl

/-- The extraction walk on the corridor reaches the goal within 4 steps. -/
theorem sLine3_walk :
    Planner.walkLoop 4 { SA1 with path := [some SA1.start] } (some SA1.start) =
      Outcome.ok (true, SA2) := rfl

/-- The first replan on the corridor succeeds. -/
theorem sLine3_replan : Planner.replan sLine3 = Outcome.ok (true, SA2) :=
  Planner.replan_eval (by decide) (by decide) (by decide) sLine3_compute sLine3_walk
    (by simp)

/-- The repair run from the middle start succeeds within 8 attempts. -/
theorem sMid3_compute :
    Planner.computeLoop 8 { sMid3 with path := ([] : List (Option Cell)) } =
      Outcome.ok (true, SB1) := rfl

/-- The extraction walk from the middle start reaches the goal. -/
theorem sMid3_walk :
    Planner.walkLoop 3 { SB1 with path := [some SB1.start] } (some SB1.start) =
      Outcome.ok (true, SB2) := rfl

/-- The first replan from the middle start succeeds, and leaves the far
cell on the open list. -/
theorem sMid3_replan : Planner.replan sMid3 = Outcome.ok (true, SB2) :=
  Planner.replan_eval (by decide) (by decide) (by decide) sMid3_compute sMid3_walk
    (by simp)

/-- The repair run on the walled corridor terminates with true (start and
goal both read infinite estimates). -/
theorem sWall3_compute :
    Planner.computeLoop 8 { sWall3 with path := ([] : List (Option Cell)) } =
      Outcome.ok (true, SC1) := rfl

/-- The extraction walk on the walled corridor fails at once: g(start) is
infinite. -/
theorem sWall3_walk :
    Planner.walkLoop 2 { SC1 with path := [some SC1.start] } (some SC1.start) =
      Outcome.ok (false, SC2) := rfl

/-- The replan on the walled corridor fails during extraction. -/
theorem sWall3_replan : Planner.replan sWall3 = Outcome.ok (false, SC2) :=
  Planner.replan_eval (by decide) (by decide) (by decide) sWall3_compute sWall3_walk
    (by simp)

/-- Claim C2, counterexample: `_compute` called while the open queue is
empty returns false, not true (the early return at line 179), here on the
reachable state left by a successful replan on the corridor. -/
theorem c2_counterexample :
    SA2.openList = [] ∧ Planner.compute SA2 = Outcome.ok (false, SA2) :=
  ⟨by decide, rfl⟩

/-- Claim C2, amended: `_compute` returns false immediately when its open
queue is empty at entry; otherwise it terminates with true as soon as the
loop guard is false, that is, when rhs(start) equals g(start) tolerantly
and the smallest queued key is not tolerantly less than k(start). -/
theorem c2_amended (s : PState) :
    (s.openList = [] → Planner.compute s = Outcome.ok (false, s)) ∧
    (s.openList ≠ [] → guardPure s = false →
      Planner.compute s = Outcome.ok (true, Planner.cellGen s s.start)) := by
  constructor
  · intro h
    unfold Planner.compute
    simp only [h]
  · intro h hg
    unfold Planner.compute
    cases hO : s.openList with
    | nil => exact absurd hO h
    | cons a l =>
      simp only [hO]
      have := @Planner.computeLoop_guard_false s (by rw [Planner.loopGuard_eq]; exact hg)
        Planner.MAX_STEPS
      rw [Planner.loopGuard_eq] at this
      exact this

/-- Claim C2 amended, witness: the post-replan middle-start state has a
non-empty queue and a false guard, and `_compute` on it returns true. -/
theorem c2_amended_witness :
    SB2.openList ≠ [] ∧ guardPure SB2 = false ∧
      Planner.compute SB2 = Outcome.ok (true, Planner.cellGen SB2 SB2.start) :=
  ⟨by decide, by decide, (c2_amended SB2).2 (by decide) (by decide)⟩

/-- Claim C7: update on the goal cell returns immediately and changes
nothing at all - the whole planner state is returned as it was. -/
theorem c7_update_goal (s : PState) (u : Cell) (c : Dbl) (h : u = s.goal) :
    Planner.update s u c = s := by
  unfold Planner.update
  rw [if_pos h]

/-- Claim C7, witness: updating the goal of the corridor planner is the
identity. -/
theorem c7_update_goal_witness :
    ((2 : Int), (0 : Int)) = sLine3.goal ∧
      Planner.update sLine3 ((2 : Int), (0 : Int)) (Dbl.fin 5) = sLine3 :=
  ⟨rfl, c7_update_goal sLine3 ((2 : Int), (0 : Int)) (Dbl.fin 5) rfl⟩

/-- Claim C8: after construction, km is 0, last is the start, the path is
empty, rhs of the goal reads 0, every non-goal cell reads (∞, ∞), and the
open queue holds exactly the goal with key (h(start, goal), 0). -/
theorem c8_construction (W H : Int) (costs : Cell → Dbl) (st gl : Cell) :
    (Planner.init W H costs st gl).km = Dbl.fin 0 ∧
    (Planner.init W H costs st gl).last = st ∧
    (Planner.init W H costs st gl).path = [] ∧
    rhsRead (Planner.init W H costs st gl) gl = Dbl.fin 0 ∧
    (∀ u : Cell, u ≠ gl →
      gRead (Planner.init W H costs st gl) u = Dbl.inf ∧
      rhsRead (Planner.init W H costs st gl) u = Dbl.inf) ∧
    (Planner.init W H costs st gl).openList = [((Planner.hD st gl, Dbl.fin 0), gl)] := by
  have hinit : Planner.init W H costs st gl =
      { W := W, H := H, costs := costs, start := st, goal := gl, last := st,
        km := Dbl.fin 0, cellHash := [(gl, Dbl.inf, Dbl.inf)],
        openList := [((Dbl.addD (Dbl.addD (Dbl.fin 0) (Planner.hD st gl)) (Dbl.fin 0),
          Dbl.fin 0), gl)],
        path := [] } := by
    unfold Planner.init
    simp only [Planner.rhsAcc_goal, Planner.kCalc_eq, Planner.listInsert]
    simp [kPure, gRead, rhsRead, rhsRaw, hashFind, Planner.cellGen, Math.lessB,
      Math.equalsB, Dbl.bltD, olIns]
  rw [hinit]
  refine ⟨rfl, rfl, rfl, ?_, ?_, ?_⟩
  · unfold rhsRead
    rw [if_pos rfl]
  · intro u hu
    constructor
    · unfold gRead hashFind
      rw [if_neg (fun he => hu he.symm)]
      rfl
    · unfold rhsRead
      rw [if_neg (by exact hu)]
      unfold rhsRaw hashFind
      rw [if_neg (fun he => hu he.symm)]
      rfl
  · cases hh : Planner.hD st gl with
    | fin x => simp [Dbl.addD]
    | inf => simp [Dbl.addD, Planner.hD] at hh

/-- Claim C8, witness: the corridor construction instantiated, with the
non-goal clause read out at the start cell. -/
theorem c8_construction_witness :
    ((0 : Int), (0 : Int)) ≠ (((2 : Int), (0 : Int)) : Cell) ∧
      gRead sLine3 ((0 : Int), (0 : Int)) = Dbl.inf ∧
      rhsRead sLine3 ((0 : Int), (0 : Int)) = Dbl.inf ∧
      sLine3.openList = [((Planner.hD (0, 0) (2, 0), Dbl.fin 0), ((2 : Int), (0 : Int)))] := by
  have h := c8_construction 3 1 costsOne (0, 0) (2, 0)
  have hne : (((0 : Int), (0 : Int)) : Cell) ≠ (((2 : Int), (0 : Int)) : Cell) := by decide
  exact ⟨hne, (h.2.2.2.2.1 _ hne).1, (h.2.2.2.2.1 _ hne).2, h.2.2.2.2.2⟩

/-- Claim C10, counterexample: the rhs accessor called on the goal with the
`DBL_MIN` read-only sentinel does not materialise the goal - the store is
left empty, against the claim that an absent cell is materialised at
(∞, ∞). -/
theorem c10_counterexample :
    sBare.cellHash = [] ∧
    Planner.rhsAcc sBare sBare.goal DBL_MIN = (sBare, Dbl.fin 0) ∧
    (Planner.rhsAcc sBare sBare.goal DBL_MIN).1.cellHash = [] :=
  ⟨rfl, Planner.rhsAcc_goal rfl DBL_MIN, rfl⟩

/-- Claim C10, amended: `_g(u, DBL_MIN)` materialises `u` and never
overwrites a stored value, behaving as a get; `_rhs(u, DBL_MIN)` does the
same for non-goal `u`; on the goal `_rhs` returns 0 immediately with no
state change at all (no materialisation), for every value argument; in
particular no call can store `DBL_MIN` itself. -/
theorem c10_amended (s : PState) (u : Cell) (v : Dbl) :
    Planner.gAcc s u DBL_MIN = (Planner.cellGen s u, gRead s u) ∧
    (∀ w, gRead (Planner.gAcc s u DBL_MIN).1 w = gRead s w) ∧
    (∀ w, rhsRaw (Planner.gAcc s u DBL_MIN).1 w = rhsRaw s w) ∧
    (u ≠ s.goal → Planner.rhsAcc s u DBL_MIN = (Planner.cellGen s u, rhsRaw s u)) ∧
    (∀ w, gRead (Planner.rhsAcc s u DBL_MIN).1 w = gRead s w) ∧
    (∀ w, rhsRaw (Planner.rhsAcc s u DBL_MIN).1 w = rhsRaw s w) ∧
    (u = s.goal → Planner.rhsAcc s u v = (s, Dbl.fin 0)) := by
  refine ⟨Planner.gAcc_get s u, ?_, ?_, fun h => Planner.rhsAcc_get_ne h, ?_, ?_,
    fun h => Planner.rhsAcc_goal h v⟩
  · intro w; rw [Planner.gAcc_get]; exact gRead_cellGen s u w
  · intro w; rw [Planner.gAcc_get]; exact rhsRaw_cellGen s u w
  · intro w
    rw [Planner.rhsAcc_get]
    by_cases h : u = s.goal
    · rw [if_pos h]
    · rw [if_neg h]; exact gRead_cellGen s u w
  · intro w
    rw [Planner.rhsAcc_get]
    by_cases h : u = s.goal
    · rw [if_pos h]
    · rw [if_neg h]; exact rhsRaw_cellGen s u w

/-- Claim C10 amended, witness: the non-goal and goal clauses instantiated
on the corridor planner. -/
theorem c10_amended_witness :
    ((((1 : Int), (0 : Int)) : Cell) ≠ sLine3.goal ∧
      Planner.rhsAcc sLine3 ((1 : Int), (0 : Int)) DBL_MIN =
        (Planner.cellGen sLine3 ((1 : Int), (0 : Int)),
          rhsRaw sLine3 ((1 : Int), (0 : Int)))) ∧
    (sBare.goal = sBare.goal ∧
      Planner.rhsAcc sBare sBare.goal (Dbl.fin 7) = (sBare, Dbl.fin 0)) :=
  ⟨⟨by decide, (c10_amended sLine3 ((1 : Int), (0 : Int)) DBL_MIN).2.2.2.1 (by decide)⟩,
   ⟨rfl, (c10_amended sBare sBare.goal (Dbl.fin 7)).2.2.2.2.2.2 rfl⟩⟩

/-- Claim C1: in Case C of the repair loop, for a non-goal underconsistent
cell at the top of the queue with a fresh key, the code sets g(u) to
infinity and then immediately leaves the loop through the break at line 242
(the just-written g(u) always reads back as infinity), so rhs(u) is never
recomputed from the neighbours: here it stays 5 although a finite candidate
cost(u, goal) + g(goal) = 1 exists, and the cell is still queued. -/
theorem c1_code_bug :
    gRead cUnder ((1 : Int), (0 : Int)) = Dbl.fin FXONE ∧
    rhsRaw cUnder ((1 : Int), (0 : Int)) = Dbl.fin (5 * FXONE) ∧
    Dbl.addD (Planner.costD cUnder ((1 : Int), (0 : Int)) ((2 : Int), (0 : Int)))
      (gRead cUnder ((2 : Int), (0 : Int))) = Dbl.fin FXONE ∧
    Planner.compute cUnder = Outcome.ok (true, cUnderOut) ∧
    gRead cUnderOut ((1 : Int), (0 : Int)) = Dbl.inf ∧
    rhsRaw cUnderOut ((1 : Int), (0 : Int)) = Dbl.fin (5 * FXONE) ∧
    cUnderOut.openList = cUnder.openList := by
  refine ⟨by decide, by decide, by decide, ?_, by decide, by decide, by decide⟩
  exact @Planner.computeLoop_mono 2 Planner.MAX_STEPS (by decide) cUnder
    (Outcome.ok (true, cUnderOut)) rfl (by simp)

/-- Claim C3, counterexample: on the walled corridor replan() returns false
from the extraction walk, and path() afterwards holds the start cell - not
the empty sequence. -/
theorem c3_counterexample :
    Planner.replan sWall3 = Outcome.ok (false, SC2) ∧
    SC2.path = [some ((0 : Int), (0 : Int))] :=
  ⟨sWall3_replan, by decide⟩

/-- Claim C5, counterexample: on the corridor the first replan succeeds
with the full path and drains the open queue, so an immediate second
replan with no intervening change returns false with an empty path. -/
theorem c5_counterexample :
    Planner.replan sLine3 = Outcome.ok (true, SA2) ∧
    SA2.path = [some ((0 : Int), (0 : Int)), some ((1 : Int), (0 : Int)),
      some ((2 : Int), (0 : Int))] ∧
    resProj (Planner.replan SA2) = Outcome.ok (false, ([] : List (Option Cell))) := by
  refine ⟨sLine3_replan, by decide, ?_⟩
  rw [Planner.replan_empty (by decide : SA2.openList = [])]
  rfl

/-- Claim C9, counterexample: after the successful corridor replan, raising
the middle cell to UNWALKABLE and lowering it back to its original cost
leaves the queue empty, so the following replan returns false with an
empty path instead of reproducing the original path. -/
theorem c9_counterexample :
    Planner.replan sLine3 = Outcome.ok (true, SA2) ∧
    SA2.path = [some ((0 : Int), (0 : Int)), some ((1 : Int), (0 : Int)),
      some ((2 : Int), (0 : Int))] ∧
    SA2.costs ((1 : Int), (0 : Int)) = Dbl.fin FXONE ∧
    resProj (Planner.replan SA3) = Outcome.ok (false, ([] : List (Option Cell))) := by
  refine ⟨sLine3_replan, by decide, by decide, ?_⟩
  rw [Planner.replan_empty (by decide : SA3.openList = [])]
  rfl

/-- Read-equivalence is reflexive. -/
theorem ReadEqCore.refl (s : PState) : ReadEqCore s s :=
  ⟨rfl, rfl, rfl, rfl, rfl, rfl, rfl, fun _ => rfl, fun _ => rfl, fun _ => rfl⟩

/-- Read-equivalence is symmetric. -/
theorem ReadEqCore.symm {s t : PState} (h : ReadEqCore s t) : ReadEqCore t s :=
  ⟨h.hW.symm, h.hH.symm, h.hstart.symm, h.hgoal.symm, h.hlast.symm, h.hkm.symm,
   h.hopen.symm, fun v => (h.hcosts v).symm, fun v => (h.hg v).symm,
   fun v => (h.hrhs v).symm⟩

/-- Read-equivalence is transitive. -/
theorem ReadEqCore.trans {s t w : PState} (h1 : ReadEqCore s t) (h2 : ReadEqCore t w) :
    ReadEqCore s w :=
  ⟨h1.hW.trans h2.hW, h1.hH.trans h2.hH, h1.hstart.trans h2.hstart,
   h1.hgoal.trans h2.hgoal, h1.hlast.trans h2.hlast, h1.hkm.trans h2.hkm,
   h1.hopen.trans h2.hopen, fun v => (h1.hcosts v).trans (h2.hcosts v),
   fun v => (h1.hg v).trans (h2.hg v), fun v => (h1.hrhs v).trans (h2.hrhs v)⟩

/-- Materialising a cell is read-equivalent to doing nothing. -/
theorem cellGen_core (s : PState) (u : Cell) : ReadEqCore (Planner.cellGen s u) s := by
  have hf := cellGen_fields s u
  exact ⟨hf.1, hf.2.1, hf.2.2.2.1, hf.2.2.2.2.1, hf.2.2.2.2.2.1, hf.2.2.2.2.2.2.1,
    hf.2.2.2.2.2.2.2.1, fun v => by rw [hf.2.2.1], fun v => gRead_cellGen s u v,
    fun v => rhsRaw_cellGen s u v⟩

/-- Clearing or replacing the path is read-equivalent to doing nothing. -/
theorem setPath_core (s : PState) (p : List (Option Cell)) :
    ReadEqCore { s with path := p } s :=
  ⟨rfl, rfl, rfl, rfl, rfl, rfl, rfl, fun _ => rfl, fun _ => rfl, fun _ => rfl⟩

/-- The pinned rhs read is determined by the core reads. -/
theorem ReadEqCore.rhsRead_eq {s t : PState} (h : ReadEqCore s t) (v : Cell) :
    rhsRead s v = rhsRead t v := by
  unfold rhsRead
  rw [h.hgoal]
  by_cases hv : v = t.goal
  · rw [if_pos hv, if_pos hv]
  · rw [if_neg hv, if_neg hv]
    exact h.hrhs v

/-- Edge costs are determined by the core reads. -/
theorem ReadEqCore.costD_eq {s t : PState} (h : ReadEqCore s t) (a b : Cell) :
    Planner.costD s a b = Planner.costD t a b := by
  unfold Planner.costD
  rw [h.hcosts a, h.hcosts b]

/-- The neighbour list is determined by the core reads. -/
theorem ReadEqCore.nbrs_eq {s t : PState} (h : ReadEqCore s t) (u : Cell) :
    Planner.nbrs s u = Planner.nbrs t u := by
  unfold Planner.nbrs
  rw [h.hW, h.hH]

/-- The pure key is determined by the core reads. -/
theorem ReadEqCore.kPure_eq {s t : PState} (h : ReadEqCore s t) (u : Cell) :
    kPure s u = kPure t u := by
  unfold kPure
  rw [h.hstart, h.hkm, h.hg u, h.rhsRead_eq u]

/-- The pure guard value is determined by the core reads. -/
theorem ReadEqCore.guardPure_eq {s t : PState} (h : ReadEqCore s t) :
    guardPure s = guardPure t := by
  unfold guardPure
  rw [h.hopen, h.hstart, h.hg t.start, h.rhsRead_eq t.start]
  cases t.openList with
  | nil => rfl
  | cons e rest => rw [h.kPure_eq t.start]

/-- The successor scan only materialises cells: its state is read-equivalent
to its input, with the path untouched. -/
theorem minSuccLoop_core (u : Cell) (l : List (Option Cell)) :
    ∀ (s : PState) (best : Option Cell) (bc : Dbl),
      ReadEqCore (Planner.minSuccLoop s u best bc l).1 s ∧
      (Planner.minSuccLoop s u best bc l).1.path = s.path := by
  induction l with
  | nil => intro s best bc; exact ⟨ReadEqCore.refl s, rfl⟩
  | cons o t ih =>
    intro s best bc
    cases o with
    | none => exact ih s best bc
    | some v =>
      unfold Planner.minSuccLoop
      rw [Planner.gAcc_get]
      simp only
      have hpath : (Planner.cellGen s v).path = s.path := (cellGen_fields s v).2.2.2.2.2.2.2.2
      split_ifs with h1 h2
      · obtain ⟨hc, hp⟩ := ih (Planner.cellGen s v) best bc
        exact ⟨hc.trans (cellGen_core s v), hp.trans hpath⟩
      · obtain ⟨hc, hp⟩ := ih (Planner.cellGen s v) (some v) _
        exact ⟨hc.trans (cellGen_core s v), hp.trans hpath⟩
      · obtain ⟨hc, hp⟩ := ih (Planner.cellGen s v) best bc
        exact ⟨hc.trans (cellGen_core s v), hp.trans hpath⟩

/-- The successor scan returns the same cell on read-equivalent states. -/
theorem minSuccLoop_det (u : Cell) (l : List (Option Cell)) :
    ∀ {s t : PState} (best : Option Cell) (bc : Dbl), ReadEqCore s t →
      (Planner.minSuccLoop s u best bc l).2 = (Planner.minSuccLoop t u best bc l).2 := by
  induction l with
  | nil => intro s t best bc _; rfl
  | cons o tl ih =>
    intro s t best bc h
    cases o with
    | none => exact ih best bc h
    | some v =>
      unfold Planner.minSuccLoop
      rw [Planner.gAcc_get, Planner.gAcc_get]
      simp only
      rw [h.costD_eq u v, h.hg v]
      have hcg : ReadEqCore (Planner.cellGen s v) (Planner.cellGen t v) :=
        ((cellGen_core s v).trans h).trans (cellGen_core t v).symm
      split_ifs with h1 h2
      · exact ih best bc hcg
      · exact ih (some v) _ hcg
      · exact ih best bc hcg

/-- Planner::_min_succ returns the same successor on read-equivalent
states, only materialises, and leaves the path alone. -/
theorem minSucc_det {s t : PState} (u : Cell) (h : ReadEqCore s t) :
    (Planner.minSucc s u).2 = (Planner.minSucc t u).2 := by
  unfold Planner.minSucc
  rw [h.nbrs_eq u]
  exact minSuccLoop_det u (Planner.nbrs t u) none Dbl.inf h

/-- State effect of Planner::_min_succ: materialisation only. -/
theorem minSucc_core (s : PState) (u : Cell) :
    ReadEqCore (Planner.minSucc s u).1 s ∧ (Planner.minSucc s u).1.path = s.path :=
  minSuccLoop_core u (Planner.nbrs s u) s none Dbl.inf

/-- Unfolding of the extraction walk at fuel zero. -/
theorem Planner.walkLoop_zero (s : PState) (cur : Option Cell) :
    Planner.walkLoop 0 s cur =
      (if cur = some s.goal then Outcome.ok (true, s) else Outcome.fuelOut) := rfl

/-- Unfolding of the extraction walk at a successor fuel. -/
theorem Planner.walkLoop_succ (n : Nat) (s : PState) (cur : Option Cell) :
    Planner.walkLoop (n + 1) s cur =
      (if cur = some s.goal then Outcome.ok (true, s)
       else
        match cur with
        | none => Outcome.ok (false, s)
        | some c =>
          if Math.equalsB (Planner.gAcc s c DBL_MIN).2 Dbl.inf then
            Outcome.ok (false, (Planner.gAcc s c DBL_MIN).1)
          else
            Planner.walkLoop n
              { (Planner.minSucc (Planner.gAcc s c DBL_MIN).1 c).1 with
                path := (Planner.minSucc (Planner.gAcc s c DBL_MIN).1 c).1.path ++
                  [(Planner.minSucc (Planner.gAcc s c DBL_MIN).1 c).2] }
              (Planner.minSucc (Planner.gAcc s c DBL_MIN).1 c).2) := rfl

/-- The extraction walk leaves a state read-equivalent to its input, and
only appends to the path. -/
theorem Planner.walkLoop_core : ∀ (n : Nat) {s s' : PState} {cur : Option Cell} {b : Bool},
    Planner.walkLoop n s cur = Outcome.ok (b, s') →
    ReadEqCore s' s ∧ ∃ tail, s'.path = s.path ++ tail := by
  intro n
  induction n with
  | zero =>
    intro s s' cur b h
    rw [Planner.walkLoop_zero] at h
    by_cases hc : cur = some s.goal
    · rw [if_pos hc] at h
      cases h
      exact ⟨ReadEqCore.refl _, [], by simp⟩
    · rw [if_neg hc] at h
      cases h
  | succ n ih =>
    intro s s' cur b h
    rw [Planner.walkLoop_succ] at h
    by_cases hc : cur = some s.goal
    · rw [if_pos hc] at h
      cases h
      exact ⟨ReadEqCore.refl _, [], by simp⟩
    · rw [if_neg hc] at h
      cases cur with
      | none =>
        cases h
        exact ⟨ReadEqCore.refl _, [], by simp⟩
      | some c =>
        simp only at h
        rw [Planner.gAcc_get] at h
        simp only at h
        split_ifs at h with h1
        · cases h
          exact ⟨cellGen_core s c, [], by
            simp [(cellGen_fields s c).2.2.2.2.2.2.2.2]⟩
        · obtain ⟨hcore, tail, hp⟩ := ih h
          have hmc := minSucc_core (Planner.cellGen s c) c
          refine ⟨(hcore.trans (setPath_core _ _)).trans
            (hmc.1.trans (cellGen_core s c)), ?_⟩
          refine ⟨(Planner.minSucc (Planner.cellGen s c) c).2 :: tail, ?_⟩
          rw [hp]
          simp only
          rw [hmc.2, (cellGen_fields s c).2.2.2.2.2.2.2.2]
          simp

/-- The extraction walk is determined, up to materialisation, by the core
reads and the path: read-equivalent states with equal paths give equal
observable results. -/
theorem Planner.walkLoop_det : ∀ (n : Nat) {s t : PState} {cur : Option Cell},
    ReadEqCore s t → s.path = t.path →
    resProj (Planner.walkLoop n s cur) = resProj (Planner.walkLoop n t cur) := by
  intro n
  induction n with
  | zero =>
    intro s t cur h hp
    rw [Planner.walkLoop_zero, Planner.walkLoop_zero]
    by_cases hc : cur = some s.goal
    · rw [if_pos hc, if_pos (h.hgoal ▸ hc)]
      simp [resProj, hp]
    · rw [if_neg hc, if_neg (fun he => hc (h.hgoal.symm ▸ he))]
  | succ n ih =>
    intro s t cur h hp
    rw [Planner.walkLoop_succ, Planner.walkLoop_succ]
    by_cases hc : cur = some s.goal
    · rw [if_pos hc, if_pos (h.hgoal ▸ hc)]
      simp [resProj, hp]
    · rw [if_neg hc, if_neg (fun he => hc (h.hgoal.symm ▸ he))]
      cases cur with
      | none => simp [resProj, hp]
      | some c =>
        simp only
        rw [Planner.gAcc_get, Planner.gAcc_get]
        simp only
        rw [h.hg c]
        split_ifs with h1
        · simp only [resProj]
          rw [(cellGen_fields s c).2.2.2.2.2.2.2.2, (cellGen_fields t c).2.2.2.2.2.2.2.2, hp]
        · have hcg : ReadEqCore (Planner.cellGen s c) (Planner.cellGen t c) :=
            ((cellGen_core s c).trans h).trans (cellGen_core t c).symm
          have hnd := minSucc_det c hcg
          have hms := minSucc_core (Planner.cellGen s c) c
          have hmt := minSucc_core (Planner.cellGen t c) c
          rw [hnd]
          apply ih
          · exact (setPath_core _ _).trans
              ((((hms.1.trans (cellGen_core s c)).trans h).trans
                ((hmt.1.trans (cellGen_core t c)).symm)).trans (setPath_core _ _).symm)
          · simp only
            rw [hms.2, hmt.2, (cellGen_fields s c).2.2.2.2.2.2.2.2,
              (cellGen_fields t c).2.2.2.2.2.2.2.2, hp]

/-- A false result of one loop iteration can only come from the
continuation. -/
theorem Planner.computeIter_false_src {s : PState} {f : PState → Outcome (Bool × PState)}
    {w : PState} (h : Planner.computeIter s f = Outcome.ok (false, w)) :
    ∃ t, f t = Outcome.ok (false, w) := by
  unfold Planner.computeIter at h
  cases hOL : s.openList with
  | nil =>
    simp only [hOL] at h
    exact Outcome.noConfusion h
  | cons e rest =>
    obtain ⟨kOld, u⟩ := e
    simp only [hOL] at h
    split_ifs at h <;> first
      | exact ⟨_, h⟩
      | cases h

/-- A repair run that returns false leaves a state whose guard is still
true: the failure is the attempts cap, observed with the guard holding. -/
theorem Planner.computeLoop_false_guard : ∀ {n : Nat} {s w : PState},
    Planner.computeLoop n s = Outcome.ok (false, w) → guardPure w = true := by
  intro n
  induction n with
  | zero =>
    intro s w h
    rw [Planner.computeLoop_zero] at h
    by_cases hg : (Planner.loopGuard s).2 = true
    · rw [if_pos hg] at h
      cases h
      rw [Planner.loopGuard_eq] at hg ⊢
      simp only at hg ⊢
      rw [(cellGen_core s s.start).guardPure_eq]
      exact hg
    · rw [if_neg hg] at h
      cases h
  | succ n ih =>
    intro s w h
    rw [Planner.computeLoop_succ] at h
    by_cases hg : (Planner.loopGuard s).2 = true
    · rw [if_pos hg] at h
      obtain ⟨t, ht⟩ := Planner.computeIter_false_src h
      exact ih ht
    · rw [if_neg hg] at h
      cases h

/-- The early return of `_compute` on an empty queue. -/
theorem Planner.compute_empty {s : PState} (h : s.openList = []) :
    Planner.compute s = Outcome.ok (false, s) := by
  unfold Planner.compute
  simp only [h]

/-- With a non-empty queue and a false guard, `_compute` succeeds at once,
only materialising the start cell. -/
theorem Planner.compute_guard_false {s : PState} (hOL : s.openList ≠ [])
    (hg : guardPure s = false) :
    Planner.compute s = Outcome.ok (true, Planner.cellGen s s.start) := by
  unfold Planner.compute
  cases hO : s.openList with
  | nil => exact absurd hO hOL
  | cons a l =>
    simp only [hO]
    have h2 := @Planner.computeLoop_guard_false s
      (by rw [Planner.loopGuard_eq]; exact hg) Planner.MAX_STEPS
    rw [Planner.loopGuard_eq] at h2
    exact h2

/-- A false result of `_compute` is either the empty-queue early return or
a budget exhaustion, which leaves the guard true. -/
theorem Planner.compute_false_cases {s w : PState}
    (h : Planner.compute s = Outcome.ok (false, w)) :
    (s.openList = [] ∧ w = s) ∨ guardPure w = true := by
  unfold Planner.compute at h
  cases hO : s.openList with
  | nil =>
    simp only [hO] at h
    left
    refine ⟨rfl, ?_⟩
    cases h
    rfl
  | cons a l =>
    simp only [hO] at h
    right
    exact Planner.computeLoop_false_guard h

/-- A replan whose `_compute` succeeds continues with the extraction walk
from the computed state. -/
theorem Planner.replan_resProj {t w' : PState}
    (hc : Planner.compute { t with path := ([] : List (Option Cell)) } =
      Outcome.ok (true, w')) :
    resProj (Planner.replan t) =
      resProj (Planner.walkLoop Planner.MAX_STEPS { w' with path := [some w'.start] }
        (some w'.start)) := by
  unfold Planner.replan
  simp only
  rw [hc]

/-- Reproduction scheme: if a replan leaves a non-empty open list with a
false loop guard, then replanning from that state (or from any state with
the same core reads) again returns the same flag and the same path. -/
theorem Planner.replan_reproduce {s s1 t : PState} {b1 : Bool}
    (h1 : Planner.replan s = Outcome.ok (b1, s1))
    (h2 : s1.openList ≠ [])
    (h3 : guardPure s1 = false)
    (ht : ReadEqCore t s1) :
    resProj (Planner.replan t) = Outcome.ok (b1, s1.path) := by
  unfold Planner.replan at h1
  simp only at h1
  cases hC : Planner.compute { s with path := ([] : List (Option Cell)) } with
  | emptyPeek => rw [hC] at h1; cases h1
  | fuelOut => rw [hC] at h1; cases h1
  | ok p =>
    obtain ⟨bc, w⟩ := p
    cases bc with
    | false =>
      rw [hC] at h1
      simp only at h1
      injection h1 with hp
      injection hp with hb hs
      subst hb
      subst hs
      cases Planner.compute_false_cases hC with
      | inl hl =>
        exact absurd (by rw [hl.2]; exact hl.1) h2
      | inr hr =>
        rw [h3] at hr
        exact Bool.noConfusion hr
    | true =>
      rw [hC] at h1
      simp only at h1
      have hwcore := Planner.walkLoop_core Planner.MAX_STEPS h1
      have hcore1 : ReadEqCore s1 w := (hwcore.1).trans (setPath_core w [some w.start])
      have htw : ReadEqCore t w := ht.trans hcore1
      have hOL0 : ({ t with path := ([] : List (Option Cell)) } : PState).openList ≠ [] := by
        show t.openList ≠ []
        rw [ht.hopen]
        exact h2
      have hg0 : guardPure ({ t with path := ([] : List (Option Cell)) } : PState) = false := by
        rw [(setPath_core t ([] : List (Option Cell))).guardPure_eq, ht.guardPure_eq]
        exact h3
      have hcmp := Planner.compute_guard_false hOL0 hg0
      have hcg : ReadEqCore
          (Planner.cellGen ({ t with path := ([] : List (Option Cell)) } : PState)
            ({ t with path := ([] : List (Option Cell)) } : PState).start) w :=
        (cellGen_core _ _).trans ((setPath_core t _).trans htw)
      have hstart : (Planner.cellGen ({ t with path := ([] : List (Option Cell)) } : PState)
          ({ t with path := ([] : List (Option Cell)) } : PState).start).start = w.start :=
        hcg.hstart
      rw [Planner.replan_resProj hcmp, hstart]
      refine Eq.trans (@Planner.walkLoop_det Planner.MAX_STEPS _
        { w with path := [some w.start] } (some w.start) ?_ ?_) (by rw [h1]; rfl)
      · exact ⟨hcg.hW, hcg.hH, rfl, hcg.hgoal, hcg.hlast, hcg.hkm, hcg.hopen,
          hcg.hcosts, hcg.hg, hcg.hrhs⟩
      · rfl

/-- Claim C5, amended: replan(); replan() with no intervening change
returns the same success flag and the same path, provided the first call
leaves a non-empty open queue whose loop guard is false (rhs(start) equals
g(start) tolerantly and the top key is not tolerantly below k(start)); a
first call that drains the queue makes the second return false with an
empty path instead (see the counterexample). -/
theorem c5_amended (s s1 : PState) (b1 : Bool)
    (h1 : Planner.replan s = Outcome.ok (b1, s1))
    (h2 : s1.openList ≠ [])
    (h3 : guardPure s1 = false) :
    resProj (Planner.replan s1) = Outcome.ok (b1, s1.path) :=
  Planner.replan_reproduce h1 h2 h3 (ReadEqCore.refl s1)

/-- Claim C5 amended, witness: the middle-start corridor replan leaves a
non-empty queue with a false guard, and the second replan reproduces the
result. -/
theorem c5_amended_witness :
    Planner.replan sMid3 = Outcome.ok (true, SB2) ∧
    SB2.openList ≠ [] ∧ guardPure SB2 = false ∧
    resProj (Planner.replan SB2) = Outcome.ok (true, SB2.path) :=
  ⟨sMid3_replan, by decide, by decide,
   c5_amended sMid3 SB2 true sMid3_replan (by decide) (by decide)⟩

/-- The heuristic from a cell to itself is zero. -/
theorem Planner.hD_self (a : Cell) : Planner.hD a a = Dbl.fin 0 := by
  unfold Planner.hD
  simp

/-- Adding a zero double is the identity. -/
theorem Dbl.addD_zero (x : Dbl) : Dbl.addD x (Dbl.fin 0) = x := by
  cases x <;> simp [Dbl.addD]

/-- A materialisation is the identity on an already materialised cell. -/
theorem cellGen_of_mem {s : PState} {u : Cell} {p : Dbl × Dbl}
    (h : hashFind s.cellHash u = some p) : Planner.cellGen s u = s := by
  unfold Planner.cellGen
  rw [h]

/-- Reconciling a locally consistent cell that is off the queue only
materialises it. -/
theorem Planner.updateVertex_noop {s : PState} {u : Cell}
    (hcons : Math.equalsB (gRead s u) (rhsRead s u) = true)
    (hq : olContains s.openList u = false) :
    Planner.updateVertex s u = Planner.cellGen s u := by
  unfold Planner.updateVertex
  rw [Planner.gAcc_get]
  simp only
  rw [Planner.rhsAcc_get]
  simp only [(cellGen_fields s u).2.2.2.2.1, rhsRead_cellGen]
  rw [hcons]
  by_cases h : u = s.goal
  · simp only [if_pos h]
    rw [(show olContains (Planner.cellGen s u).openList u = false by
      rw [(cellGen_fields s u).2.2.2.2.2.2.2.1]; exact hq)]
    simp
  · simp only [if_neg h]
    rw [(show olContains (Planner.cellGen (Planner.cellGen s u) u).openList u = false by
      rw [cellGen_idem, (cellGen_fields s u).2.2.2.2.2.2.2.1]; exact hq)]
    simp [cellGen_idem]

/-- A cost notification on a non-goal cell that is locally consistent and
off the queue, while `last` equals `start`, rewrites only that cell's cost:
the result is read-equivalent to the input with the patched cost function,
and the path buffer is untouched. -/
theorem Planner.update_core {s : PState} {u : Cell} (c : Dbl)
    (hu : u ≠ s.goal) (hlast : s.last = s.start)
    (hcons : Math.equalsB (gRead s u) (rhsRead s u) = true)
    (hq : olContains s.openList u = false) :
    ReadEqCore (Planner.update s u c)
      { s with costs := fun v => if v = u then c else s.costs v } ∧
    (Planner.update s u c).path = s.path := by
  have key : ∀ (A : PState), A.W = s.W → A.H = s.H → A.costs = s.costs →
      A.start = s.start → A.goal = s.goal → A.last = s.start →
      A.km = s.km → A.openList = s.openList → A.cellHash = s.cellHash →
      A.path = s.path →
      ReadEqCore (Planner.updateVertex
          { Planner.cellGen A u with
            costs := fun v => if v = u then c else (Planner.cellGen A u).costs v } u)
        { s with costs := fun v => if v = u then c else s.costs v } ∧
      (Planner.updateVertex
          { Planner.cellGen A u with
            costs := fun v => if v = u then c else (Planner.cellGen A u).costs v } u).path
        = s.path := by
    intro A hW hH hco hst hgl hls hkm hol hch hpa
    have hgA : ∀ v, gRead A v = gRead s v := fun v => by unfold gRead; rw [hch]
    have hrA : ∀ v, rhsRaw A v = rhsRaw s v := fun v => by unfold rhsRaw; rw [hch]
    have hrrA : ∀ v, rhsRead A v = rhsRead s v := fun v => by
      unfold rhsRead
      rw [hgl]
      by_cases hv : v = s.goal
      · rw [if_pos hv, if_pos hv]
      · rw [if_neg hv, if_neg hv]; exact hrA v
    have hconsC : Math.equalsB
        (gRead { Planner.cellGen A u with
          costs := fun v => if v = u then c else (Planner.cellGen A u).costs v } u)
        (rhsRead { Planner.cellGen A u with
          costs := fun v => if v = u then c else (Planner.cellGen A u).costs v } u)
        = true := by
      have h1 : gRead ({ Planner.cellGen A u with
          costs := fun v => if v = u then c else (Planner.cellGen A u).costs v } : PState) u
          = gRead s u := (gRead_cellGen A u u).trans (hgA u)
      have h2 : rhsRead ({ Planner.cellGen A u with
          costs := fun v => if v = u then c else (Planner.cellGen A u).costs v } : PState) u
          = rhsRead s u := (rhsRead_cellGen A u u).trans (hrrA u)
      rw [h1, h2]; exact hcons
    have hqC : olContains ({ Planner.cellGen A u with
        costs := fun v => if v = u then c else (Planner.cellGen A u).costs v }
          : PState).openList u = false := by
      show olContains (Planner.cellGen A u).openList u = false
      rw [(cellGen_fields A u).2.2.2.2.2.2.2.1, hol]
      exact hq
    have hmemC : hashFind ({ Planner.cellGen A u with
        costs := fun v => if v = u then c else (Planner.cellGen A u).costs v }
          : PState).cellHash u = some (gRead A u, rhsRaw A u) :=
      hashFind_cellGen_self A u
    rw [Planner.updateVertex_noop hconsC hqC, cellGen_of_mem hmemC]
    have hf := cellGen_fields A u
    refine ⟨⟨?_, ?_, ?_, ?_, ?_, ?_, ?_, ?_, ?_, ?_⟩, ?_⟩
    · exact hf.1.trans hW
    · exact hf.2.1.trans hH
    · exact hf.2.2.2.1.trans hst
    · exact hf.2.2.2.2.1.trans hgl
    · exact (hf.2.2.2.2.2.1.trans hls).trans hlast.symm
    · exact hf.2.2.2.2.2.2.1.trans hkm
    · exact hf.2.2.2.2.2.2.2.1.trans hol
    · intro v
      show (if v = u then c else (Planner.cellGen A u).costs v)
          = (if v = u then c else s.costs v)
      by_cases hv : v = u
      · rw [if_pos hv, if_pos hv]
      · rw [if_neg hv, if_neg hv, hf.2.2.1, hco]
    · intro v
      exact (gRead_cellGen A u v).trans (hgA v)
    · intro v
      exact (rhsRaw_cellGen A u v).trans (hrA v)
    · exact hf.2.2.2.2.2.2.2.2.trans hpa
  have hres := key
    { s with km := Dbl.addD s.km (Planner.hD s.last s.start), last := s.start }
    rfl rfl rfl rfl rfl rfl
    (by show Dbl.addD s.km (Planner.hD s.last s.start) = s.km
        rw [hlast, Planner.hD_self, Dbl.addD_zero])
    rfl rfl rfl
  unfold Planner.update
  rw [if_neg hu]
  exact hres

/-- Claim C9, amended: after a successful replan that leaves a non-empty
queue with a false loop guard, flipping a consistent off-queue non-goal
cell to COST_UNWALKABLE and back to its old cost, then replanning, returns
the same success flag and the same path as the first replan (the
queue-draining case fails instead, see the counterexample). -/
theorem c9_amended (s s1 : PState) (u : Cell) (c0 : Dbl)
    (h1 : Planner.replan s = Outcome.ok (true, s1))
    (h2 : s1.openList ≠ [])
    (h3 : guardPure s1 = false)
    (hu : u ≠ s1.goal) (hlast : s1.last = s1.start) (hc : s1.costs u = c0)
    (hcons : Math.equalsB (gRead s1 u) (rhsRead s1 u) = true)
    (hq : olContains s1.openList u = false) :
    resProj (Planner.replan
      (Planner.update (Planner.update s1 u COST_UNWALKABLE) u c0))
      = Outcome.ok (true, s1.path) := by
  have c1 := (Planner.update_core COST_UNWALKABLE hu hlast hcons hq).1
  have hu' : u ≠ (Planner.update s1 u COST_UNWALKABLE).goal := by
    rw [c1.hgoal]; exact hu
  have hlast' : (Planner.update s1 u COST_UNWALKABLE).last
      = (Planner.update s1 u COST_UNWALKABLE).start := by
    rw [c1.hlast, c1.hstart]; exact hlast
  have hcons' : Math.equalsB (gRead (Planner.update s1 u COST_UNWALKABLE) u)
      (rhsRead (Planner.update s1 u COST_UNWALKABLE) u) = true := by
    rw [c1.hg u, c1.rhsRead_eq u]; exact hcons
  have hq' : olContains (Planner.update s1 u COST_UNWALKABLE).openList u = false := by
    rw [c1.hopen]; exact hq
  have c2 := (Planner.update_core c0 hu' hlast' hcons' hq').1
  have hfin : ReadEqCore
      (Planner.update (Planner.update s1 u COST_UNWALKABLE) u c0) s1 := by
    refine ⟨?_, ?_, ?_, ?_, ?_, ?_, ?_, ?_, ?_, ?_⟩
    · exact c2.hW.trans c1.hW
    · exact c2.hH.trans c1.hH
    · exact c2.hstart.trans c1.hstart
    · exact c2.hgoal.trans c1.hgoal
    · exact c2.hlast.trans c1.hlast
    · exact c2.hkm.trans c1.hkm
    · exact c2.hopen.trans c1.hopen
    · intro v
      have e2 := c2.hcosts v
      by_cases hv : v = u
      · rw [e2]
        show (if v = u then c0 else (Planner.update s1 u COST_UNWALKABLE).costs v)
            = s1.costs v
        rw [if_pos hv, hv]
        exact hc.symm
      · rw [e2]
        show (if v = u then c0 else (Planner.update s1 u COST_UNWALKABLE).costs v)
            = s1.costs v
        rw [if_neg hv]
        have e1 := c1.hcosts v
        rw [e1]
        show (if v = u then COST_UNWALKABLE else s1.costs v) = s1.costs v
        rw [if_neg hv]
    · intro v
      exact (c2.hg v).trans (c1.hg v)
    · intro v
      exact (c2.hrhs v).trans (c1.hrhs v)
  exact Planner.replan_reproduce h1 h2 h3 hfin

/-- Claim C9 amended, witness: in the middle-start corridor, block the
start cell and restore its cost; the second replan reproduces the first
result. -/
theorem c9_amended_witness :
    Planner.replan sMid3 = Outcome.ok (true, SB2) ∧
    SB2.openList ≠ [] ∧ guardPure SB2 = false ∧
    ((1, 0) : Cell) ≠ SB2.goal ∧ SB2.last = SB2.start ∧
    SB2.costs (1, 0) = Dbl.fin FXONE ∧
    Math.equalsB (gRead SB2 (1, 0)) (rhsRead SB2 (1, 0)) = true ∧
    olContains SB2.openList (1, 0) = false ∧
    resProj (Planner.replan
      (Planner.update (Planner.update SB2 (1, 0) COST_UNWALKABLE) (1, 0)
        (Dbl.fin FXONE)))
      = Outcome.ok (true, SB2.path) :=
  ⟨sMid3_replan, by decide, by decide, by decide, by decide, by decide, by decide,
   by decide,
   c9_amended sMid3 SB2 (1, 0) (Dbl.fin FXONE) sMid3_replan (by decide) (by decide)
     (by decide) (by decide) (by decide) (by decide) (by decide)⟩

/-- Materialisation keeps the path. -/
theorem cellGen_path (s : PState) (u : Cell) :
    (Planner.cellGen s u).path = s.path := (cellGen_fields s u).2.2.2.2.2.2.2.2

/-- Materialisation keeps the start. -/
theorem cellGen_start (s : PState) (u : Cell) :
    (Planner.cellGen s u).start = s.start := (cellGen_fields s u).2.2.2.1

/-- The g accessor keeps the path. -/
theorem Planner.gAcc_path (s : PState) (u : Cell) (v : Dbl) :
    (Planner.gAcc s u v).1.path = s.path := by
  unfold Planner.gAcc
  by_cases hv : v ≠ DBL_MIN <;> simp [hv, cellGen_path]

/-- The g accessor keeps the start. -/
theorem Planner.gAcc_start (s : PState) (u : Cell) (v : Dbl) :
    (Planner.gAcc s u v).1.start = s.start := by
  unfold Planner.gAcc
  by_cases hv : v ≠ DBL_MIN <;> simp [hv, cellGen_start]

/-- The rhs accessor keeps the path. -/
theorem Planner.rhsAcc_path (s : PState) (u : Cell) (v : Dbl) :
    (Planner.rhsAcc s u v).1.path = s.path := by
  unfold Planner.rhsAcc
  by_cases hg : u = s.goal <;> by_cases hv : v ≠ DBL_MIN <;>
    simp [hg, hv, cellGen_path]

/-- The rhs accessor keeps the start. -/
theorem Planner.rhsAcc_start (s : PState) (u : Cell) (v : Dbl) :
    (Planner.rhsAcc s u v).1.start = s.start := by
  unfold Planner.rhsAcc
  by_cases hg : u = s.goal <;> by_cases hv : v ≠ DBL_MIN <;>
    simp [hg, hv, cellGen_start]

/-- The key calculation keeps the path. -/
theorem Planner.kCalc_path (s : PState) (u : Cell) :
    (Planner.kCalc s u).1.path = s.path := by
  rw [Planner.kCalc_eq]
  exact cellGen_path s u

/-- The key calculation keeps the start. -/
theorem Planner.kCalc_start (s : PState) (u : Cell) :
    (Planner.kCalc s u).1.start = s.start := by
  rw [Planner.kCalc_eq]
  exact cellGen_start s u

/-- Open-list insertion keeps the path. -/
theorem Planner.listInsert_path (s : PState) (u : Cell) (k : KeyD) :
    (Planner.listInsert s u k).path = s.path := rfl

/-- Open-list insertion keeps the start. -/
theorem Planner.listInsert_start (s : PState) (u : Cell) (k : KeyD) :
    (Planner.listInsert s u k).start = s.start := rfl

/-- Open-list removal keeps the path. -/
theorem Planner.listRemove_path (s : PState) (u : Cell) :
    (Planner.listRemove s u).path = s.path := rfl

/-- Open-list removal keeps the start. -/
theorem Planner.listRemove_start (s : PState) (u : Cell) :
    (Planner.listRemove s u).start = s.start := rfl

/-- Open-list reinsertion keeps the path. -/
theorem Planner.listUpdate_path (s : PState) (u : Cell) (k : KeyD) :
    (Planner.listUpdate s u k).path = s.path := rfl

/-- Open-list reinsertion keeps the start. -/
theorem Planner.listUpdate_start (s : PState) (u : Cell) (k : KeyD) :
    (Planner.listUpdate s u k).start = s.start := rfl

/-- Reconciliation keeps the path. -/
theorem Planner.updateVertex_path (s : PState) (u : Cell) :
    (Planner.updateVertex s u).path = s.path := by
  simp only [Planner.updateVertex]
  split <;> (try split) <;> (try split) <;>
    simp only [Planner.listUpdate_path, Planner.listInsert_path, Planner.listRemove_path,
      Planner.kCalc_path, Planner.rhsAcc_path, Planner.gAcc_path]

/-- Reconciliation keeps the start. -/
theorem Planner.updateVertex_start (s : PState) (u : Cell) :
    (Planner.updateVertex s u).start = s.start := by
  simp only [Planner.updateVertex]
  split <;> (try split) <;> (try split) <;>
    simp only [Planner.listUpdate_start, Planner.listInsert_start, Planner.listRemove_start,
      Planner.kCalc_start, Planner.rhsAcc_start, Planner.gAcc_start]

/-- The neighbour relaxation keeps the path. -/
theorem Planner.relaxNbrs_path (s : PState) (u : Cell) (l : List (Option Cell)) :
    (Planner.relaxNbrs s u l).path = s.path := by
  induction l generalizing s with
  | nil => rfl
  | cons hd t ih =>
    cases hd with
    | none => exact ih s
    | some v =>
      simp only [Planner.relaxNbrs]
      rw [ih, Planner.updateVertex_path]
      split
      · simp only [Planner.rhsAcc_path, Planner.gAcc_path]
      · rfl

/-- The neighbour relaxation keeps the start. -/
theorem Planner.relaxNbrs_start (s : PState) (u : Cell) (l : List (Option Cell)) :
    (Planner.relaxNbrs s u l).start = s.start := by
  induction l generalizing s with
  | nil => rfl
  | cons hd t ih =>
    cases hd with
    | none => exact ih s
    | some v =>
      simp only [Planner.relaxNbrs]
      rw [ih, Planner.updateVertex_start]
      split
      · simp only [Planner.rhsAcc_start, Planner.gAcc_start]
      · rfl

/-- The overconsistent expansion keeps the path. -/
theorem Planner.expandOver_path (s : PState) (u : Cell) :
    (Planner.expandOver s u).path = s.path := by
  show (Planner.relaxNbrs
      (Planner.listRemove
        (Planner.gAcc (Planner.rhsAcc s u DBL_MIN).1 u (Planner.rhsAcc s u DBL_MIN).2).1 u) u
      (Planner.nbrs
        (Planner.listRemove
          (Planner.gAcc (Planner.rhsAcc s u DBL_MIN).1 u
            (Planner.rhsAcc s u DBL_MIN).2).1 u) u)).path = s.path
  rw [Planner.relaxNbrs_path, Planner.listRemove_path, Planner.gAcc_path,
    Planner.rhsAcc_path]

/-- The overconsistent expansion keeps the start. -/
theorem Planner.expandOver_start (s : PState) (u : Cell) :
    (Planner.expandOver s u).start = s.start := by
  show (Planner.relaxNbrs
      (Planner.listRemove
        (Planner.gAcc (Planner.rhsAcc s u DBL_MIN).1 u (Planner.rhsAcc s u DBL_MIN).2).1 u) u
      (Planner.nbrs
        (Planner.listRemove
          (Planner.gAcc (Planner.rhsAcc s u DBL_MIN).1 u
            (Planner.rhsAcc s u DBL_MIN).2).1 u) u)).start = s.start
  rw [Planner.relaxNbrs_start, Planner.listRemove_start, Planner.gAcc_start,
    Planner.rhsAcc_start]

/-- The rhs-recompute scan never changes the state. -/
theorem Planner.nbrMinCost_state (s : PState) (u : Cell) (tmpg : Dbl)
    (l : List (Option Cell)) : (Planner.nbrMinCost s u tmpg l).1 = s := by
  induction l with
  | nil => rfl
  | cons hd t ih =>
    cases hd with
    | none => exact ih
    | some v =>
      simp only [Planner.nbrMinCost]
      by_cases hc : Math.equalsB (Planner.costD s u v) Dbl.inf = true
      · rw [if_pos hc]; exact ih
      · rw [if_neg hc]; exact ih

/-- The closing update cascade keeps the path. -/
theorem Planner.updateNbrs_path (s : PState) (l : List (Option Cell)) :
    (Planner.updateNbrs s l).path = s.path := by
  induction l generalizing s with
  | nil => rfl
  | cons hd t ih =>
    cases hd with
    | none => exact ih s
    | some v =>
      show (Planner.updateNbrs (Planner.updateVertex s v) t).path = s.path
      rw [ih, Planner.updateVertex_path]

/-- The closing update cascade keeps the start. -/
theorem Planner.updateNbrs_start (s : PState) (l : List (Option Cell)) :
    (Planner.updateNbrs s l).start = s.start := by
  induction l generalizing s with
  | nil => rfl
  | cons hd t ih =>
    cases hd with
    | none => exact ih s
    | some v =>
      show (Planner.updateNbrs (Planner.updateVertex s v) t).start = s.start
      rw [ih, Planner.updateVertex_start]

/-- The guard evaluation keeps the path. -/
theorem Planner.loopGuard_path (s : PState) : (Planner.loopGuard s).1.path = s.path := by
  unfold Planner.loopGuard
  cases hOL : s.openList with
  | nil =>
    simp only [hOL]
    simp only [Planner.gAcc_path, Planner.rhsAcc_path]
  | cons e rest =>
    obtain ⟨k0, u0⟩ := e
    simp only [hOL]
    split <;> simp only [Planner.kCalc_path, Planner.gAcc_path, Planner.rhsAcc_path]

/-- The guard evaluation keeps the start. -/
theorem Planner.loopGuard_start (s : PState) : (Planner.loopGuard s).1.start = s.start := by
  unfold Planner.loopGuard
  cases hOL : s.openList with
  | nil =>
    simp only [hOL]
    simp only [Planner.gAcc_start, Planner.rhsAcc_start]
  | cons e rest =>
    obtain ⟨k0, u0⟩ := e
    simp only [hOL]
    split <;> simp only [Planner.kCalc_start, Planner.gAcc_start, Planner.rhsAcc_start]

/-- One repair iteration keeps the path and the start, given that the
continuation does. -/
theorem Planner.computeIter_ps (s : PState) (recur : PState → Outcome (Bool × PState))
    (hrec : ∀ t b t', recur t = Outcome.ok (b, t') → t'.path = t.path ∧ t'.start = t.start)
    (b : Bool) (w : PState)
    (h : Planner.computeIter s recur = Outcome.ok (b, w)) :
    w.path = s.path ∧ w.start = s.start := by
  unfold Planner.computeIter at h
  cases hOL : s.openList with
  | nil =>
    simp only [hOL] at h
    exact Outcome.noConfusion h
  | cons e rest =>
    obtain ⟨kOld, u⟩ := e
    simp only [hOL] at h
    split_ifs at h <;>
      first
        | (refine ⟨((hrec _ _ _ h).1).trans ?_, ((hrec _ _ _ h).2).trans ?_⟩ <;>
            simp only [Planner.listUpdate_path, Planner.listUpdate_start,
              Planner.updateNbrs_path, Planner.updateNbrs_start,
              Planner.updateVertex_path, Planner.updateVertex_start,
              Planner.expandOver_path, Planner.expandOver_start,
              Planner.nbrMinCost_state,
              Planner.rhsAcc_path, Planner.rhsAcc_start,
              Planner.gAcc_path, Planner.gAcc_start,
              Planner.kCalc_path, Planner.kCalc_start])
        | (cases h
           refine ⟨?_, ?_⟩ <;>
            simp only [Planner.gAcc_path, Planner.gAcc_start,
              Planner.rhsAcc_path, Planner.rhsAcc_start,
              Planner.kCalc_path, Planner.kCalc_start])

/-- The repair loop keeps the path and the start. -/
theorem Planner.computeLoop_ps : ∀ {n : Nat} {s w : PState} {b : Bool},
    Planner.computeLoop n s = Outcome.ok (b, w) → w.path = s.path ∧ w.start = s.start := by
  intro n
  induction n with
  | zero =>
    intro s w b h
    rw [Planner.computeLoop_zero] at h
    by_cases hg : (Planner.loopGuard s).2 = true
    · rw [if_pos hg] at h
      cases h
      exact ⟨Planner.loopGuard_path s, Planner.loopGuard_start s⟩
    · rw [if_neg hg] at h
      cases h
      exact ⟨Planner.loopGuard_path s, Planner.loopGuard_start s⟩
  | succ n ih =>
    intro s w b h
    rw [Planner.computeLoop_succ] at h
    by_cases hg : (Planner.loopGuard s).2 = true
    · rw [if_pos hg] at h
      have hps := Planner.computeIter_ps (Planner.loopGuard s).1
        (fun t => Planner.computeLoop n t) (fun t b' t' ht => ih ht) b w h
      exact ⟨hps.1.trans (Planner.loopGuard_path s), hps.2.trans (Planner.loopGuard_start s)⟩
    · rw [if_neg hg] at h
      cases h
      exact ⟨Planner.loopGuard_path s, Planner.loopGuard_start s⟩

/-- The full repair entry keeps the path and the start. -/
theorem Planner.compute_ps {s w : PState} {b : Bool}
    (h : Planner.compute s = Outcome.ok (b, w)) : w.path = s.path ∧ w.start = s.start := by
  unfold Planner.compute at h
  cases hOL : s.openList with
  | nil =>
    rw [hOL] at h
    simp only at h
    cases h
    exact ⟨rfl, rfl⟩
  | cons e rest =>
    rw [hOL] at h
    simp only at h
    exact Planner.computeLoop_ps h

/-- Claim C3, amended: a replan() that returns false leaves either an empty
path (the repair phase failed, before any cell was pushed) or a partial
path headed by the start cell (the extraction walk failed after pushing);
the unconditional empty-path promise of the claim holds only in the first
case. -/
theorem c3_amended (s w : PState)
    (h : Planner.replan s = Outcome.ok (false, w)) :
    w.path = [] ∨ ∃ tail, w.path = some w.start :: tail := by
  simp only [Planner.replan] at h
  cases hc : Planner.compute { s with path := ([] : List (Option Cell)) } with
  | emptyPeek => rw [hc] at h; exact Outcome.noConfusion h
  | fuelOut => rw [hc] at h; exact Outcome.noConfusion h
  | ok p =>
    obtain ⟨b1, s1⟩ := p
    rw [hc] at h
    cases b1 with
    | false =>
      simp only at h
      cases h
      left
      exact (Planner.compute_ps hc).1
    | true =>
      simp only at h
      have hcore := Planner.walkLoop_core Planner.MAX_STEPS h
      right
      obtain ⟨tail, hp⟩ := hcore.2
      refine ⟨tail, ?_⟩
      rw [hp, hcore.1.hstart]
      rfl

/-- Claim C3 amended, witness: the walled corridor's failed replan retains
the partial path headed by the start cell. -/
theorem c3_amended_witness :
    Planner.replan sWall3 = Outcome.ok (false, SC2) ∧
    (SC2.path = [] ∨ ∃ tail, SC2.path = some SC2.start :: tail) :=
  ⟨sWall3_replan, c3_amended sWall3 SC2 sWall3_replan⟩

/-- Tolerant equality is reflexive. -/
theorem Math.equalsB_refl (x : Dbl) : Math.equalsB x x = true := by
  cases x with
  | fin a => simp [Math.equalsB, EPSILON]
  | inf => rfl

/-- Tolerant equality is symmetric. -/
theorem Math.equalsB_comm (a b : Dbl) : Math.equalsB a b = Math.equalsB b a := by
  cases a <;> cases b <;> simp [Math.equalsB]
  omega

/-- Infinity is tolerantly distinct from every finite value. -/
theorem Math.equalsB_inf_fin (n : Int) : Math.equalsB Dbl.inf (Dbl.fin n) = false := rfl

/-- Trichotomy of the tolerant comparisons: not equal and not greater is
less. -/
theorem Math.lessB_of_not {a b : Dbl} (he : Math.equalsB a b = false)
    (hg : Math.greaterB a b = false) : Math.lessB a b = true := by
  cases a with
  | inf =>
    cases b with
    | inf => simp [Math.equalsB] at he
    | fin n => simp [Math.greaterB, Math.equalsB, Dbl.bltD] at hg
  | fin m =>
    cases b with
    | inf => simp [Math.lessB, Math.equalsB, Dbl.bltD]
    | fin n =>
      simp [Math.greaterB, Math.equalsB, Math.lessB, Dbl.bltD, EPSILON] at he hg ⊢
      omega

/-- A tolerantly smaller value is finite. -/
theorem Math.lessB_ne_inf {a b : Dbl} (h : Math.lessB a b = true) : a ≠ Dbl.inf := by
  intro ha
  subst ha
  cases b <;> simp [Math.lessB, Math.equalsB, Dbl.bltD] at h

/-- The exact minimum of a finite value and anything is finite. -/
theorem Dbl.minD_ne_inf {a : Dbl} (b : Dbl) (ha : a ≠ Dbl.inf) :
    Dbl.minD a b ≠ Dbl.inf := by
  unfold Dbl.minD
  cases a with
  | inf => exact absurd rfl ha
  | fin m =>
    cases b with
    | inf => simp [Dbl.bltD]
    | fin n => by_cases h : n < m <;> simp [Dbl.bltD, h]

/-- The exact minimum of two values bounded below is bounded below. -/
theorem Dbl.minD_bound {a b : Dbl} {m : Int}
    (ha : a = Dbl.inf ∨ ∃ n : Int, a = Dbl.fin n ∧ m ≤ n)
    (hb : b = Dbl.inf ∨ ∃ n : Int, b = Dbl.fin n ∧ m ≤ n) :
    Dbl.minD a b = Dbl.inf ∨ ∃ n : Int, Dbl.minD a b = Dbl.fin n ∧ m ≤ n := by
  unfold Dbl.minD
  by_cases h : Dbl.bltD b a = true
  · rw [if_pos h]; exact hb
  · rw [if_neg h]; exact ha

/-- The sum of two values bounded below is bounded below by the sum. -/
theorem Dbl.addD_bound {a b : Dbl} {m1 m2 : Int}
    (ha : a = Dbl.inf ∨ ∃ n : Int, a = Dbl.fin n ∧ m1 ≤ n)
    (hb : b = Dbl.inf ∨ ∃ n : Int, b = Dbl.fin n ∧ m2 ≤ n) :
    Dbl.addD a b = Dbl.inf ∨ ∃ n : Int, Dbl.addD a b = Dbl.fin n ∧ m1 + m2 ≤ n := by
  rcases ha with ha | ⟨n1, ha, h1⟩
  · subst ha; left; cases b <;> rfl
  · rcases hb with hb | ⟨n2, hb, h2⟩
    · subst hb; subst ha; left; rfl
    · subst ha; subst hb; right; exact ⟨n1 + n2, rfl, by omega⟩

/-- The scaled mid-point of two costs at least one is at least one. -/
theorem fxScale_bound {sc x : Int} (hsc : FXONE ≤ sc) (hx : 2 * FXONE ≤ x) :
    FXONE ≤ sc * (x / 2) / FXONE := by
  have hpos : (0 : Int) < FXONE := by decide
  have h2 : FXONE ≤ x / 2 := by
    rw [Int.le_ediv_iff_mul_le (by decide : (0 : Int) < 2)]
    omega
  rw [Int.le_ediv_iff_mul_le hpos]
  calc FXONE * FXONE ≤ sc * (x / 2) :=
        mul_le_mul hsc h2 (le_of_lt hpos) (le_trans (le_of_lt hpos) hsc)
    _ = sc * (x / 2) := rfl

/-- The edge cost under costs that are unwalkable or at least one is
infinite or at least one. -/
theorem Planner.costD_bound {s : PState}
    (hc : ∀ v, s.costs v = COST_UNWALKABLE ∨ ∃ n : Int, s.costs v = Dbl.fin n ∧ FXONE ≤ n)
    (a b : Cell) :
    Planner.costD s a b = Dbl.inf ∨
      ∃ n : Int, Planner.costD s a b = Dbl.fin n ∧ FXONE ≤ n := by
  unfold Planner.costD
  by_cases h : s.costs a = COST_UNWALKABLE ∨ s.costs b = COST_UNWALKABLE
  · rw [if_pos h]; left; rfl
  · rw [if_neg h]
    push_neg at h
    rcases hc a with ha | ⟨na, ha, hna⟩
    · exact absurd ha h.1
    rcases hc b with hb | ⟨nb, hb, hnb⟩
    · exact absurd hb h.2
    right
    simp only [ha, hb, Dbl.addD, Dbl.halfD]
    split
    · exact ⟨SQRT2 * ((na + nb) / 2) / FXONE, rfl,
        fxScale_bound (by decide) (by omega)⟩
    · exact ⟨FXONE * ((na + nb) / 2) / FXONE, rfl,
        fxScale_bound (by decide) (by omega)⟩

/-- The edge cost depends only on the cost field. -/
theorem Planner.costD_congr {s t : PState} (h : s.costs = t.costs) (a b : Cell) :
    Planner.costD s a b = Planner.costD t a b := by
  unfold Planner.costD
  rw [h]

/-- Open-list membership is membership of the cell projection. -/
theorem olContains_iff_mem {l : List (KeyD × Cell)} {v : Cell} :
    olContains l v = true ↔ v ∈ l.map (fun e => e.2) := by
  induction l with
  | nil => simp [olContains]
  | cons e t ih =>
    by_cases h : e.2 = v
    · simp [olContains, h]
    · simp only [olContains, List.map_cons, List.mem_cons]
      rw [if_neg h]
      constructor
      · intro hc
        exact Or.inr (ih.mp hc)
      · intro hm
        rcases hm with hm | hm
        · exact absurd hm.symm h
        · exact ih.mpr hm

/-- The inserted cell is on the list after insertion. -/
theorem olContains_olIns_self (l : List (KeyD × Cell)) (k : KeyD) (u : Cell) :
    olContains (olIns l k u) u = true := by
  induction l with
  | nil => simp [olIns, olContains]
  | cons e t ih =>
    simp only [olIns]
    split
    · simp [olContains]
    · simp only [olContains]
      split
      · rfl
      · exact ih

/-- Insertion leaves the membership of other cells unchanged. -/
theorem olContains_olIns_ne {v u : Cell} (hv : v ≠ u) (l : List (KeyD × Cell)) (k : KeyD) :
    olContains (olIns l k u) v = olContains l v := by
  induction l with
  | nil =>
    simp only [olIns, olContains]
    rw [if_neg (fun h : u = v => hv h.symm)]
  | cons e t ih =>
    simp only [olIns]
    split
    · simp only [olContains]
      rw [if_neg (fun h : u = v => hv h.symm)]
    · simp only [olContains]
      split
      · rfl
      · exact ih

/-- Cells of the list after insertion. -/
theorem mem_map_olIns {x : Cell} (l : List (KeyD × Cell)) (k : KeyD) (u : Cell) :
    x ∈ (olIns l k u).map (fun e => e.2) → x = u ∨ x ∈ l.map (fun e => e.2) := by
  induction l with
  | nil => intro h; simp [olIns] at h; exact Or.inl h
  | cons e t ih =>
    simp only [olIns]
    split
    · intro h
      simp only [List.map_cons, List.mem_cons] at h ⊢
      rcases h with h | h
      · exact Or.inl h
      · exact Or.inr h
    · intro h
      simp only [List.map_cons, List.mem_cons] at h ⊢
      rcases h with h | h
      · exact Or.inr (Or.inl h)
      · rcases ih h with h | h
        · exact Or.inl h
        · exact Or.inr (Or.inr h)

/-- Inserting a cell not on the list keeps the cells pairwise distinct. -/
theorem nodup_olIns {l : List (KeyD × Cell)} {u : Cell} (k : KeyD)
    (hu : olContains l u = false) (hnd : (l.map (fun e => e.2)).Nodup) :
    ((olIns l k u).map (fun e => e.2)).Nodup := by
  induction l with
  | nil => simp [olIns]
  | cons e t ih =>
    have he2 : e.2 ≠ u := by
      intro h
      rw [olContains, if_pos h] at hu
      cases hu
    have hu' : olContains t u = false := by
      rw [olContains, if_neg he2] at hu
      exact hu
    simp only [List.map_cons, List.nodup_cons] at hnd
    simp only [olIns]
    split
    · simp only [List.map_cons, List.nodup_cons]
      refine ⟨?_, hnd⟩
      intro hmem
      rcases List.mem_cons.mp hmem with h | h
      · exact he2 h.symm
      · rw [← olContains_iff_mem] at h
        rw [h] at hu'
        cases hu'
    · simp only [List.map_cons, List.nodup_cons]
      refine ⟨?_, ih hu' hnd.2⟩
      intro hmem
      rcases mem_map_olIns t k u hmem with h | h
      · exact he2 h
      · exact hnd.1 h

/-- Cells of the list after erasure. -/
theorem mem_map_olDel {x : Cell} (l : List (KeyD × Cell)) (u : Cell) :
    x ∈ (olDel l u).map (fun e => e.2) → x ∈ l.map (fun e => e.2) := by
  induction l with
  | nil => intro h; exact h
  | cons e t ih =>
    simp only [olDel]
    split
    · intro h
      simp only [List.map_cons, List.mem_cons]
      exact Or.inr h
    · intro h
      simp only [List.map_cons, List.mem_cons] at h ⊢
      rcases h with h | h
      · exact Or.inl h
      · exact Or.inr (ih h)

/-- Erasure keeps the cells pairwise distinct. -/
theorem nodup_olDel {l : List (KeyD × Cell)} (u : Cell)
    (hnd : (l.map (fun e => e.2)).Nodup) : ((olDel l u).map (fun e => e.2)).Nodup := by
  induction l with
  | nil => exact hnd
  | cons e t ih =>
    simp only [List.map_cons, List.nodup_cons] at hnd
    simp only [olDel]
    split
    · exact hnd.2
    · simp only [List.map_cons, List.nodup_cons]
      exact ⟨fun h => hnd.1 (mem_map_olDel t u h), ih hnd.2⟩

/-- Erasure leaves the membership of other cells unchanged. -/
theorem olContains_olDel_ne {v u : Cell} (hv : v ≠ u) (l : List (KeyD × Cell)) :
    olContains (olDel l u) v = olContains l v := by
  induction l with
  | nil => rfl
  | cons e t ih =>
    simp only [olDel]
    by_cases h : e.2 = u
    · have hev : e.2 ≠ v := by
        rw [h]
        exact fun hh : u = v => hv hh.symm
      rw [if_pos h]
      simp [olContains, hev]
    · rw [if_neg h]
      simp only [olContains]
      by_cases h2 : e.2 = v
      · simp [h2]
      · simp [h2, ih]

/-- On a duplicate-free list, erasure removes the cell. -/
theorem olContains_olDel_self {l : List (KeyD × Cell)} (u : Cell)
    (hnd : (l.map (fun e => e.2)).Nodup) : olContains (olDel l u) u = false := by
  induction l with
  | nil => rfl
  | cons e t ih =>
    simp only [List.map_cons, List.nodup_cons] at hnd
    simp only [olDel]
    by_cases h : e.2 = u
    · rw [if_pos h]
      cases hc : olContains t u with
      | false => rfl
      | true => exact absurd (olContains_iff_mem.mp hc) (h ▸ hnd.1)
    · rw [if_neg h]
      simp only [olContains]
      rw [if_neg h]
      exact ih hnd.2

/-- The invariant is preserved under read-equivalence. -/
theorem PInv_of_core {t s : PState} (h : ReadEqCore t s) (hi : PInv s) : PInv t := by
  refine ⟨?_, ?_, ?_, ?_, ?_, ?_⟩
  · intro u
    rw [h.hopen, h.hg u, h.rhsRead_eq u]
    exact hi.main u
  · intro u hg hne
    rw [h.hgoal] at hg
    rw [h.hg u] at hne
    rw [h.hrhs u]
    exact hi.fing u hg hne
  · intro u hg
    rw [h.hgoal] at hg
    rw [h.hrhs u]
    exact hi.rhsB u hg
  · intro u
    rw [h.hg u]
    exact hi.gB u
  · intro v
    rw [h.hcosts v]
    exact hi.costB v
  · rw [h.hopen]
    exact hi.nd

/-- A read through the g accessor is read-equivalent to doing nothing. -/
theorem Planner.gAcc_read_core (s : PState) (u : Cell) :
    ReadEqCore (Planner.gAcc s u DBL_MIN).1 s := by
  rw [Planner.gAcc_get]
  exact cellGen_core s u

/-- A read through the rhs accessor is read-equivalent to doing nothing. -/
theorem Planner.rhsAcc_read_core (s : PState) (u : Cell) :
    ReadEqCore (Planner.rhsAcc s u DBL_MIN).1 s := by
  rw [Planner.rhsAcc_get]
  show ReadEqCore (if u = s.goal then s else Planner.cellGen s u) s
  split
  · exact ReadEqCore.refl s
  · exact cellGen_core s u

/-- The key calculation is read-equivalent to doing nothing. -/
theorem Planner.kCalc_core (s : PState) (u : Cell) :
    ReadEqCore (Planner.kCalc s u).1 s := by
  rw [Planner.kCalc_eq]
  exact cellGen_core s u

/-- The pinned rhs read under matching goals and stored values. -/
theorem rhsRead_congr {t s : PState} (hgoal : t.goal = s.goal)
    (hraw : ∀ v, rhsRaw t v = rhsRaw s v) (v : Cell) : rhsRead t v = rhsRead s v := by
  unfold rhsRead
  rw [hgoal]
  by_cases hv : v = s.goal
  · rw [if_pos hv, if_pos hv]
  · rw [if_neg hv, if_neg hv]
    exact hraw v

/-- Normal form of the reconciliation `_update`: a four-way case split on
the tolerant-consistency test and queue membership, acting on the
materialised state. -/
theorem Planner.updateVertex_eq (s : PState) (u : Cell) :
    Planner.updateVertex s u =
      (if (!Math.equalsB (gRead s u) (rhsRead s u) && olContains s.openList u) = true then
        Planner.listUpdate (Planner.cellGen s u) u (kPure (Planner.cellGen s u) u)
       else if (!Math.equalsB (gRead s u) (rhsRead s u) && !olContains s.openList u) = true
       then
        Planner.listInsert (Planner.cellGen s u) u (kPure (Planner.cellGen s u) u)
       else if (!(!Math.equalsB (gRead s u) (rhsRead s u)) && olContains s.openList u)
           = true then
        Planner.listRemove (Planner.cellGen s u) u
       else Planner.cellGen s u) := by
  unfold Planner.updateVertex
  rw [Planner.gAcc_get]
  simp only
  rw [Planner.rhsAcc_get]
  simp only [cellGen_idem, ite_self, rhsRead_cellGen, (cellGen_fields s u).2.2.2.2.1,
    (cellGen_fields s u).2.2.2.2.2.2.2.1]
  rw [Planner.kCalc_eq]
  simp only [cellGen_idem]

/-- Reconciliation changes no read, no goal and no cost. -/
theorem Planner.updateVertex_reads (s : PState) (u : Cell) :
    (∀ v, gRead (Planner.updateVertex s u) v = gRead s v) ∧
    (∀ v, rhsRaw (Planner.updateVertex s u) v = rhsRaw s v) ∧
    (Planner.updateVertex s u).goal = s.goal ∧
    (Planner.updateVertex s u).costs = s.costs := by
  rw [Planner.updateVertex_eq]
  split
  · exact ⟨fun v => gRead_cellGen s u v, fun v => rhsRaw_cellGen s u v,
      (cellGen_fields s u).2.2.2.2.1, (cellGen_fields s u).2.2.1⟩
  · split
    · exact ⟨fun v => gRead_cellGen s u v, fun v => rhsRaw_cellGen s u v,
        (cellGen_fields s u).2.2.2.2.1, (cellGen_fields s u).2.2.1⟩
    · split
      · exact ⟨fun v => gRead_cellGen s u v, fun v => rhsRaw_cellGen s u v,
          (cellGen_fields s u).2.2.2.2.1, (cellGen_fields s u).2.2.1⟩
      · exact ⟨fun v => gRead_cellGen s u v, fun v => rhsRaw_cellGen s u v,
          (cellGen_fields s u).2.2.2.2.1, (cellGen_fields s u).2.2.1⟩

/-- Queue membership after reconciliation: the touched cell is on the list
exactly when inconsistent, all other cells keep their membership; the list
stays duplicate-free. -/
theorem Planner.updateVertex_open (s : PState) (u : Cell)
    (hnd : (s.openList.map (fun e => e.2)).Nodup) :
    (∀ w, olContains (Planner.updateVertex s u).openList w =
      if w = u then !Math.equalsB (gRead s u) (rhsRead s u)
      else olContains s.openList w) ∧
    ((Planner.updateVertex s u).openList.map (fun e => e.2)).Nodup := by
  have hOL : (Planner.cellGen s u).openList = s.openList :=
    (cellGen_fields s u).2.2.2.2.2.2.2.1
  rw [Planner.updateVertex_eq]
  cases hd : Math.equalsB (gRead s u) (rhsRead s u) <;>
    cases hq : olContains s.openList u
  · -- inconsistent, off queue: insert
    constructor
    · intro w
      show olContains (olIns (Planner.cellGen s u).openList
        (kPure (Planner.cellGen s u) u) u) w = _
      rw [hOL]
      by_cases hw : w = u
      · rw [if_pos hw, hw]
        exact olContains_olIns_self s.openList _ u
      · rw [if_neg hw]
        exact olContains_olIns_ne hw s.openList _
    · show ((olIns (Planner.cellGen s u).openList
        (kPure (Planner.cellGen s u) u) u).map (fun e => e.2)).Nodup
      rw [hOL]
      exact nodup_olIns _ hq hnd
  · -- inconsistent, on queue: reinsert under the fresh key
    constructor
    · intro w
      show olContains (olIns (olDel (Planner.cellGen s u).openList u)
        (kPure (Planner.cellGen s u) u) u) w = _
      rw [hOL]
      by_cases hw : w = u
      · rw [if_pos hw, hw]
        exact olContains_olIns_self _ _ u
      · rw [if_neg hw, olContains_olIns_ne hw _ _]
        exact olContains_olDel_ne hw s.openList
    · show ((olIns (olDel (Planner.cellGen s u).openList u)
        (kPure (Planner.cellGen s u) u) u).map (fun e => e.2)).Nodup
      rw [hOL]
      exact nodup_olIns _ (olContains_olDel_self u hnd) (nodup_olDel u hnd)
  · -- consistent, off queue: no list change
    constructor
    · intro w
      show olContains (Planner.cellGen s u).openList w = _
      rw [hOL]
      by_cases hw : w = u
      · rw [if_pos hw, hw]
        exact hq
      · rw [if_neg hw]
    · show (((Planner.cellGen s u).openList).map (fun e => e.2)).Nodup
      rw [hOL]
      exact hnd
  · -- consistent, on queue: remove
    constructor
    · intro w
      show olContains (olDel (Planner.cellGen s u).openList u) w = _
      rw [hOL]
      by_cases hw : w = u
      · rw [if_pos hw, hw]
        exact olContains_olDel_self u hnd
      · rw [if_neg hw]
        exact olContains_olDel_ne hw s.openList
    · show ((olDel (Planner.cellGen s u).openList u).map (fun e => e.2)).Nodup
      rw [hOL]
      exact nodup_olDel u hnd

/-- Reconciliation restores the queue correspondence at the touched cell
and preserves the whole invariant, given the correspondence holds
everywhere else. -/
theorem Planner.updateVertex_inv {s : PState} (u : Cell)
    (hmain : ∀ w, w ≠ u →
      olContains s.openList w = !Math.equalsB (gRead s w) (rhsRead s w))
    (hfing : ∀ w, w ≠ s.goal → gRead s w ≠ Dbl.inf → rhsRaw s w ≠ Dbl.inf)
    (hrhsB : ∀ w, w ≠ s.goal →
      rhsRaw s w = Dbl.inf ∨ ∃ n : Int, rhsRaw s w = Dbl.fin n ∧ FXONE ≤ n)
    (hgB : ∀ w, gRead s w = Dbl.inf ∨ ∃ n : Int, gRead s w = Dbl.fin n ∧ 0 ≤ n)
    (hcostB : ∀ v, s.costs v = COST_UNWALKABLE ∨
      ∃ n : Int, s.costs v = Dbl.fin n ∧ FXONE ≤ n)
    (hnd : (s.openList.map (fun e => e.2)).Nodup) :
    PInv (Planner.updateVertex s u) := by
  have hr := Planner.updateVertex_reads s u
  have ho := Planner.updateVertex_open s u hnd
  refine ⟨?_, ?_, ?_, ?_, ?_, ho.2⟩
  · intro w
    rw [ho.1 w, hr.1 w, rhsRead_congr hr.2.2.1 hr.2.1 w]
    by_cases hw : w = u
    · rw [if_pos hw, hw]
    · rw [if_neg hw]
      exact hmain w hw
  · intro w hgl hne
    rw [hr.2.2.1] at hgl
    rw [hr.1 w] at hne
    rw [hr.2.1 w]
    exact hfing w hgl hne
  · intro w hgl
    rw [hr.2.2.1] at hgl
    rw [hr.2.1 w]
    exact hrhsB w hgl
  · intro w
    rw [hr.1 w]
    exact hgB w
  · intro v
    rw [hr.2.2.2]
    exact hcostB v

/-- Reconciliation of a cell preserves the full invariant. -/
theorem Planner.updateVertex_pinv {s : PState} (u : Cell) (hi : PInv s) :
    PInv (Planner.updateVertex s u) :=
  Planner.updateVertex_inv u (fun w _ => hi.main w) hi.fing hi.rhsB hi.gB hi.costB hi.nd

/-- The closing update cascade preserves the full invariant. -/
theorem Planner.updateNbrs_inv {s : PState} (l : List (Option Cell)) (hi : PInv s) :
    PInv (Planner.updateNbrs s l) := by
  induction l generalizing s with
  | nil => exact hi
  | cons hd t ih =>
    cases hd with
    | none => exact ih hi
    | some v =>
      show PInv (Planner.updateNbrs (Planner.updateVertex s v) t)
      exact ih (Planner.updateVertex_pinv v hi)

/-- Reinsertion of a queued cell under a new key preserves the invariant. -/
theorem Planner.listUpdate_inv {s : PState} {u : Cell} (k : KeyD)
    (hi : PInv s) (hq : olContains s.openList u = true) :
    PInv (Planner.listUpdate s u k) := by
  refine ⟨?_, hi.fing, hi.rhsB, hi.gB, hi.costB, ?_⟩
  · intro w
    show olContains (olIns (olDel s.openList u) k u) w
      = !Math.equalsB (gRead s w) (rhsRead s w)
    by_cases hw : w = u
    · rw [hw, olContains_olIns_self]
      rw [← hi.main u]
      exact hq.symm
    · rw [olContains_olIns_ne hw _ _, olContains_olDel_ne hw s.openList]
      exact hi.main w
  · show ((olIns (olDel s.openList u) k u).map (fun e => e.2)).Nodup
    exact nodup_olIns _ (olContains_olDel_self u hi.nd) (nodup_olDel u hi.nd)

/-- Writing a well-bounded rhs value to a non-goal cell and reconciling it
preserves the invariant. -/
theorem Planner.rhsWrite_then_update_inv {s : PState} {v : Cell} {X : Dbl}
    (hi : PInv s)
    (hXb : X = Dbl.inf ∨ ∃ n : Int, X = Dbl.fin n ∧ FXONE ≤ n)
    (hXf : gRead s v ≠ Dbl.inf → X ≠ Dbl.inf) :
    PInv (Planner.updateVertex (Planner.rhsWrite s v X) v) := by
  have hfo : (Planner.rhsWrite s v X).openList = s.openList :=
    (rhsWrite_fields s v X).2.2.2.2.2.2.2.1
  have hfgl : (Planner.rhsWrite s v X).goal = s.goal := (rhsWrite_fields s v X).2.2.2.2.1
  have hrr : ∀ w, w ≠ v → rhsRead (Planner.rhsWrite s v X) w = rhsRead s w := by
    intro w hw
    unfold rhsRead
    rw [hfgl, rhsRaw_rhsWrite, if_neg hw]
  refine Planner.updateVertex_inv v ?_ ?_ ?_ ?_ ?_ ?_
  · intro w hw
    rw [hfo, gRead_rhsWrite, hrr w hw]
    exact hi.main w
  · intro w hgl hne
    rw [hfgl] at hgl
    rw [gRead_rhsWrite] at hne
    rw [rhsRaw_rhsWrite]
    by_cases hwv : w = v
    · rw [if_pos hwv]
      rw [hwv] at hne
      exact hXf hne
    · rw [if_neg hwv]
      exact hi.fing w hgl hne
  · intro w hgl
    rw [hfgl] at hgl
    rw [rhsRaw_rhsWrite]
    by_cases hwv : w = v
    · rw [if_pos hwv]
      exact hXb
    · rw [if_neg hwv]
      exact hi.rhsB w hgl
  · intro w
    rw [gRead_rhsWrite]
    exact hi.gB w
  · intro w
    rw [(rhsWrite_fields s v X).2.2.1]
    exact hi.costB w
  · rw [hfo]
    exact hi.nd

/-- One neighbour-relaxation step of the overconsistent branch preserves
the invariant. -/
theorem Planner.relaxStep_inv {s : PState} {u v : Cell} (hv : ¬v = s.goal)
    (hi : PInv s) :
    PInv (Planner.updateVertex
      ((Planner.rhsAcc (Planner.cellGen (Planner.cellGen s v) u) v
        (Dbl.minD (rhsRaw s v)
          (Dbl.addD (Planner.costD (Planner.cellGen s v) v u)
            (gRead (Planner.cellGen s v) u)))).1) v) := by
  have hXeq : Dbl.addD (Planner.costD (Planner.cellGen s v) v u)
      (gRead (Planner.cellGen s v) u)
      = Dbl.addD (Planner.costD s v u) (gRead s u) := by
    rw [Planner.costD_congr (cellGen_fields s v).2.2.1, gRead_cellGen]
  rw [hXeq]
  have hXb : Dbl.minD (rhsRaw s v) (Dbl.addD (Planner.costD s v u) (gRead s u)) = Dbl.inf ∨
      ∃ n : Int, Dbl.minD (rhsRaw s v) (Dbl.addD (Planner.costD s v u) (gRead s u))
        = Dbl.fin n ∧ FXONE ≤ n := by
    refine Dbl.minD_bound (hi.rhsB v hv) ?_
    rcases Dbl.addD_bound (Planner.costD_bound hi.costB v u) (hi.gB u) with h | ⟨n, hn, hb⟩
    · exact Or.inl h
    · exact Or.inr ⟨n, hn, by omega⟩
  have hXne : Dbl.minD (rhsRaw s v) (Dbl.addD (Planner.costD s v u) (gRead s u))
      ≠ DBL_MIN := by
    intro hh
    rcases hXb with h | ⟨n, hn, hb⟩
    · rw [h] at hh
      exact Dbl.noConfusion hh
    · rw [hn] at hh
      simp only [DBL_MIN, Dbl.fin.injEq] at hh
      rw [show FXONE = 100000000 from rfl] at hb
      omega
  have hvg : v ≠ (Planner.cellGen (Planner.cellGen s v) u).goal := by
    rw [(cellGen_fields (Planner.cellGen s v) u).2.2.2.2.1,
      (cellGen_fields s v).2.2.2.2.1]
    exact hv
  rw [Planner.rhsAcc_set hXne hvg]
  have hSB : PInv (Planner.cellGen (Planner.cellGen s v) u) :=
    PInv_of_core ((cellGen_core (Planner.cellGen s v) u).trans (cellGen_core s v)) hi
  refine Planner.rhsWrite_then_update_inv hSB ?_ ?_
  · exact hXb
  · intro hgne
    rw [gRead_cellGen, gRead_cellGen] at hgne
    exact Dbl.minD_ne_inf _ (hi.fing v hv hgne)

/-- The neighbour relaxation preserves the invariant. -/
theorem Planner.relaxNbrs_inv {s : PState} {u : Cell} (l : List (Option Cell))
    (hi : PInv s) : PInv (Planner.relaxNbrs s u l) := by
  induction l generalizing s with
  | nil => exact hi
  | cons hd t ih =>
    cases hd with
    | none => exact ih hi
    | some v =>
      simp only [Planner.relaxNbrs]
      refine ih ?_
      by_cases hv : v = s.goal
      · rw [if_neg (fun h : v ≠ s.goal => h hv)]
        exact Planner.updateVertex_pinv v hi
      · rw [if_pos hv]
        rw [Planner.rhsAcc_get_ne hv]
        simp only
        rw [Planner.gAcc_get]
        simp only
        exact Planner.relaxStep_inv hv hi

/-- Writing a g value tolerantly equal to the rhs read and dropping the
cell from the queue preserves the invariant. -/
theorem Planner.gWrite_remove_inv {s : PState} {u : Cell} {X : Dbl} (hi : PInv s)
    (heq : Math.equalsB X (rhsRead s u) = true)
    (hgB : X = Dbl.inf ∨ ∃ n : Int, X = Dbl.fin n ∧ 0 ≤ n)
    (hfing : u ≠ s.goal → X ≠ Dbl.inf → rhsRaw s u ≠ Dbl.inf) :
    PInv (Planner.listRemove (Planner.gWrite s u X) u) := by
  have hfo : (Planner.gWrite s u X).openList = s.openList :=
    (gWrite_fields s u X).2.2.2.2.2.2.2.1
  have hfgl : (Planner.gWrite s u X).goal = s.goal := (gWrite_fields s u X).2.2.2.2.1
  have hgr : ∀ w, gRead (Planner.listRemove (Planner.gWrite s u X) u) w
      = if w = u then X else gRead s w := fun w => gRead_gWrite s u X w
  have hraw : ∀ w, rhsRaw (Planner.listRemove (Planner.gWrite s u X) u) w
      = rhsRaw s w := fun w => rhsRaw_gWrite s u X w
  have hrr : ∀ w, rhsRead (Planner.listRemove (Planner.gWrite s u X) u) w
      = rhsRead s w := by
    intro w
    unfold rhsRead
    show (if w = (Planner.gWrite s u X).goal then Dbl.fin 0
      else rhsRaw (Planner.gWrite s u X) w) = _
    rw [hfgl, rhsRaw_gWrite]
  have hop : (Planner.listRemove (Planner.gWrite s u X) u).openList
      = olDel s.openList u := by
    show olDel (Planner.gWrite s u X).openList u = olDel s.openList u
    rw [hfo]
  refine ⟨?_, ?_, ?_, ?_, ?_, ?_⟩
  · intro w
    rw [hop, hgr w, hrr w]
    by_cases hw : w = u
    · rw [hw, olContains_olDel_self u hi.nd, if_pos rfl]
      rw [heq]
      rfl
    · rw [olContains_olDel_ne hw s.openList, if_neg hw]
      exact hi.main w
  · intro w hgl hne
    have hgl2 : w ≠ s.goal := fun hh => hgl (hh.trans hfgl.symm)
    rw [hgr w] at hne
    rw [hraw w]
    by_cases hw : w = u
    · rw [if_pos hw] at hne
      rw [hw]
      exact hfing (hw ▸ hgl2) hne
    · rw [if_neg hw] at hne
      exact hi.fing w hgl2 hne
  · intro w hgl
    have hgl2 : w ≠ s.goal := fun hh => hgl (hh.trans hfgl.symm)
    rw [hraw w]
    exact hi.rhsB w hgl2
  · intro w
    rw [hgr w]
    by_cases hw : w = u
    · rw [if_pos hw]
      exact hgB
    · rw [if_neg hw]
      exact hi.gB w
  · intro w
    have hcw : (Planner.listRemove (Planner.gWrite s u X) u).costs w = s.costs w := by
      show (Planner.gWrite s u X).costs w = s.costs w
      rw [(gWrite_fields s u X).2.2.1]
    rw [hcw]
    exact hi.costB w
  · rw [hop]
    exact nodup_olDel u hi.nd

/-- The overconsistent expansion (Case B) preserves the invariant. -/
theorem Planner.expandOver_inv {s : PState} {u : Cell} (hi : PInv s) :
    PInv (Planner.expandOver s u) := by
  unfold Planner.expandOver
  rw [Planner.rhsAcc_get]
  simp only
  by_cases hug : u = s.goal
  · rw [if_pos hug]
    have hr0 : rhsRead s u = Dbl.fin 0 := by
      unfold rhsRead
      rw [if_pos hug]
    rw [hr0, Planner.gAcc_set (by decide) s u]
    simp only
    refine Planner.relaxNbrs_inv _ (Planner.gWrite_remove_inv hi ?_ ?_ ?_)
    · rw [hr0]
      exact Math.equalsB_refl _
    · exact Or.inr ⟨0, rfl, le_refl 0⟩
    · intro h _
      exact absurd hug h
  · rw [if_neg hug]
    have hrr : rhsRead s u = rhsRaw s u := by
      unfold rhsRead
      rw [if_neg hug]
    have hne : rhsRaw s u ≠ DBL_MIN := by
      rcases hi.rhsB u hug with h | ⟨n, hn, hb⟩
      · rw [h]
        exact fun hh => Dbl.noConfusion hh
      · rw [hn]
        intro hh
        simp only [DBL_MIN, Dbl.fin.injEq] at hh
        rw [show FXONE = 100000000 from rfl] at hb
        omega
    rw [hrr, Planner.gAcc_set hne _ u]
    simp only
    have hic : PInv (Planner.cellGen s u) := PInv_of_core (cellGen_core s u) hi
    refine Planner.relaxNbrs_inv _ (Planner.gWrite_remove_inv hic ?_ ?_ ?_)
    · rw [rhsRead_cellGen]
      rw [hrr]
      rw [← rhsRaw_cellGen s u u]
      exact Math.equalsB_refl _
    · rcases hi.rhsB u hug with h | ⟨n, hn, hb⟩
      · exact Or.inl h
      · refine Or.inr ⟨n, hn, ?_⟩
        rw [show FXONE = 100000000 from rfl] at hb
        omega
    · intro _ hne2
      rw [rhsRaw_cellGen]
      exact fun hinf => hne2 (by rw [hinf])

/-- Invalidating g (the write `g(u) := ∞` of the underconsistent branch)
keeps the invariant while the cell stays on the queue, provided its rhs
read is finite. -/
theorem Planner.gWriteInf_inv {s : PState} {u : Cell} (hi : PInv s)
    (hq : olContains s.openList u = true)
    (hrne : ∃ n : Int, rhsRead s u = Dbl.fin n) :
    PInv (Planner.gWrite s u Dbl.inf) := by
  have hfgl : (Planner.gWrite s u Dbl.inf).goal = s.goal :=
    (gWrite_fields s u Dbl.inf).2.2.2.2.1
  have hrdw : ∀ w, rhsRead (Planner.gWrite s u Dbl.inf) w = rhsRead s w := by
    intro w
    unfold rhsRead
    rw [hfgl, rhsRaw_gWrite]
  refine ⟨?_, ?_, ?_, ?_, ?_, ?_⟩
  · intro w
    rw [(gWrite_fields s u Dbl.inf).2.2.2.2.2.2.2.1, gRead_gWrite, hrdw w]
    by_cases hw : w = u
    · rw [if_pos hw, hw, hq]
      obtain ⟨n, hn⟩ := hrne
      rw [hn]
      rfl
    · rw [if_neg hw]
      exact hi.main w
  · intro w hgl hne
    have hgl2 : w ≠ s.goal := fun hh => hgl (hh.trans hfgl.symm)
    rw [gRead_gWrite] at hne
    rw [rhsRaw_gWrite]
    by_cases hw : w = u
    · rw [if_pos hw] at hne
      exact absurd rfl hne
    · rw [if_neg hw] at hne
      exact hi.fing w hgl2 hne
  · intro w hgl
    have hgl2 : w ≠ s.goal := fun hh => hgl (hh.trans hfgl.symm)
    rw [rhsRaw_gWrite]
    exact hi.rhsB w hgl2
  · intro w
    rw [gRead_gWrite]
    by_cases hw : w = u
    · rw [if_pos hw]
      exact Or.inl rfl
    · rw [if_neg hw]
      exact hi.gB w
  · intro w
    have hcw : (Planner.gWrite s u Dbl.inf).costs w = s.costs w := by
      rw [(gWrite_fields s u Dbl.inf).2.2.1]
    rw [hcw]
    exact hi.costB w
  · rw [(gWrite_fields s u Dbl.inf).2.2.2.2.2.2.2.1]
    exact hi.nd

/-- One repair iteration from an invariant state with a non-empty queue
never reads the front of an empty list and hands invariant states to the
loop continuation, so its visible results keep the invariant. -/
theorem Planner.computeIter_inv {s : PState} {recur : PState → Outcome (Bool × PState)}
    (hi : PInv s) (hne : s.openList ≠ [])
    (hrec : ∀ t, PInv t → recur t ≠ Outcome.emptyPeek ∧
      ∀ b w, recur t = Outcome.ok (b, w) → PInv w) :
    Planner.computeIter s recur ≠ Outcome.emptyPeek ∧
    ∀ b w, Planner.computeIter s recur = Outcome.ok (b, w) → PInv w := by
  unfold Planner.computeIter
  cases hOL : s.openList with
  | nil => exact absurd hOL hne
  | cons e rest =>
    obtain ⟨kOld, u⟩ := e
    simp only [hOL]
    have hqu : olContains s.openList u = true := by
      rw [hOL]
      simp [olContains]
    by_cases h1 : Planner.keyCompareB kOld (Planner.kCalc s u).2 = true
    · rw [if_pos h1]
      refine hrec _ ?_
      refine Planner.listUpdate_inv _ (PInv_of_core (Planner.kCalc_core s u) hi) ?_
      rw [(Planner.kCalc_core s u).hopen]
      exact hqu
    · rw [if_neg h1]
      by_cases h2 : Math.greaterB (Planner.gAcc (Planner.kCalc s u).1 u DBL_MIN).2
          (Planner.rhsAcc (Planner.gAcc (Planner.kCalc s u).1 u DBL_MIN).1 u DBL_MIN).2
          = true
      · rw [if_pos h2]
        refine hrec _ ?_
        exact Planner.expandOver_inv
          (PInv_of_core
            ((Planner.rhsAcc_read_core (Planner.gAcc (Planner.kCalc s u).1 u DBL_MIN).1 u).trans
              ((Planner.gAcc_read_core (Planner.kCalc s u).1 u).trans
                (Planner.kCalc_core s u))) hi)
      · rw [if_neg h2]
        -- normalise the branch condition
        rw [Planner.gAcc_get] at h2
        simp only at h2
        rw [Planner.rhsAcc_get] at h2
        simp only [rhsRead_cellGen] at h2
        -- h2 : ¬ greaterB (gRead (kCalc s u).1 u) (rhsRead (kCalc s u).1 u) = true
        have hcore1 := Planner.kCalc_core s u
        have hgr : Math.greaterB (gRead s u) (rhsRead s u) = false := by
          rw [hcore1.hg u, hcore1.rhsRead_eq u] at h2
          cases hb : Math.greaterB (gRead s u) (rhsRead s u)
          · rfl
          · exact absurd hb h2
        -- the state after the two reads and the infinity write
        have hcore4 : ReadEqCore
            (Planner.gAcc
              (Planner.rhsAcc (Planner.gAcc (Planner.kCalc s u).1 u DBL_MIN).1 u DBL_MIN).1
              u DBL_MIN).1 s :=
          (Planner.gAcc_read_core _ u).trans
            ((Planner.rhsAcc_read_core _ u).trans
              ((Planner.gAcc_read_core _ u).trans (Planner.kCalc_core s u)))
        rw [Planner.gAcc_set (by decide : Dbl.inf ≠ DBL_MIN)]
        simp only
        have hi5 : PInv (Planner.gWrite
            (Planner.gAcc
              (Planner.rhsAcc (Planner.gAcc (Planner.kCalc s u).1 u DBL_MIN).1 u DBL_MIN).1
              u DBL_MIN).1 u Dbl.inf) := by
          refine Planner.gWriteInf_inv (PInv_of_core hcore4 hi) ?_ ?_
          · rw [hcore4.hopen]
            exact hqu
          · by_cases hug : u = s.goal
            · refine ⟨0, ?_⟩
              rw [hcore4.rhsRead_eq u]
              unfold rhsRead
              rw [if_pos hug]
            · have hneq : Math.equalsB (gRead s u) (rhsRead s u) = false := by
                have hm := hi.main u
                rw [hqu] at hm
                cases hb : Math.equalsB (gRead s u) (rhsRead s u)
                · rfl
                · rw [hb] at hm
                  cases hm
              have hgfin : gRead s u ≠ Dbl.inf :=
                Math.lessB_ne_inf (Math.lessB_of_not hneq hgr)
              have hrfin : rhsRaw s u ≠ Dbl.inf := hi.fing u hug hgfin
              cases hby : rhsRaw s u with
              | inf => exact absurd hby hrfin
              | fin n =>
                refine ⟨n, ?_⟩
                rw [hcore4.rhsRead_eq u]
                unfold rhsRead
                rw [if_neg hug, hby]
        by_cases h3 : u ≠ (Planner.gWrite
            (Planner.gAcc
              (Planner.rhsAcc (Planner.gAcc (Planner.kCalc s u).1 u DBL_MIN).1 u DBL_MIN).1
              u DBL_MIN).1 u Dbl.inf).goal
        · rw [if_pos h3]
          by_cases h4 : Math.equalsB (Planner.gAcc (Planner.gWrite
              (Planner.gAcc
                (Planner.rhsAcc (Planner.gAcc (Planner.kCalc s u).1 u DBL_MIN).1 u DBL_MIN).1
                u DBL_MIN).1 u Dbl.inf) u DBL_MIN).2 Dbl.inf = true
          · rw [if_pos h4]
            refine ⟨fun h => Outcome.noConfusion h, ?_⟩
            intro b w h
            cases h
            exact PInv_of_core (Planner.gAcc_read_core _ u) hi5
          · exfalso
            rw [Planner.gAcc_get] at h4
            simp only at h4
            rw [gRead_gWrite, if_pos rfl] at h4
            exact h4 (Math.equalsB_refl Dbl.inf)
        · rw [if_neg h3]
          refine hrec _ ?_
          exact Planner.updateNbrs_inv _ (Planner.updateVertex_pinv u hi5)

/-- With an empty queue the loop guard of an invariant state is false: the
start cell is off the queue, hence tolerantly consistent. -/
theorem Planner.guardPure_empty_false {s : PState} (hi : PInv s)
    (h0 : s.openList = []) : guardPure s = false := by
  unfold guardPure
  rw [h0]
  have hm := hi.main s.start
  rw [h0] at hm
  simp only [olContains] at hm
  have heq : Math.equalsB (gRead s s.start) (rhsRead s s.start) = true := by
    cases hb : Math.equalsB (gRead s s.start) (rhsRead s s.start)
    · rw [hb] at hm
      simp at hm
    · rfl
  simp only
  rw [Math.equalsB_comm, heq]
  rfl

/-- The repair loop from an invariant state never reads the front of an
empty queue, and its visible results keep the invariant. -/
theorem Planner.computeLoop_inv : ∀ {n : Nat} {s : PState}, PInv s →
    Planner.computeLoop n s ≠ Outcome.emptyPeek ∧
    ∀ b w, Planner.computeLoop n s = Outcome.ok (b, w) → PInv w := by
  intro n
  induction n with
  | zero =>
    intro s hi
    rw [Planner.computeLoop_zero]
    have hic : PInv (Planner.loopGuard s).1 := by
      rw [Planner.loopGuard_eq]
      exact PInv_of_core (cellGen_core s s.start) hi
    by_cases hg : (Planner.loopGuard s).2 = true
    · rw [if_pos hg]
      exact ⟨fun h => Outcome.noConfusion h, fun b w h => by cases h; exact hic⟩
    · rw [if_neg hg]
      exact ⟨fun h => Outcome.noConfusion h, fun b w h => by cases h; exact hic⟩
  | succ n ih =>
    intro s hi
    rw [Planner.computeLoop_succ]
    have hic : PInv (Planner.loopGuard s).1 := by
      rw [Planner.loopGuard_eq]
      exact PInv_of_core (cellGen_core s s.start) hi
    by_cases hg : (Planner.loopGuard s).2 = true
    · rw [if_pos hg]
      refine Planner.computeIter_inv hic ?_ (fun t ht => ih ht)
      intro h0
      rw [Planner.loopGuard_eq] at h0 hg
      simp only at h0 hg
      rw [(cellGen_fields s s.start).2.2.2.2.2.2.2.1] at h0
      rw [Planner.guardPure_empty_false hi h0] at hg
      cases hg
    · rw [if_neg hg]
      exact ⟨fun h => Outcome.noConfusion h, fun b w h => by cases h; exact hic⟩

/-- `_compute` from an invariant state never reads the front of an empty
queue, and its visible results keep the invariant. -/
theorem Planner.compute_inv {s : PState} (hi : PInv s) :
    Planner.compute s ≠ Outcome.emptyPeek ∧
    ∀ b w, Planner.compute s = Outcome.ok (b, w) → PInv w := by
  unfold Planner.compute
  cases hOL : s.openList with
  | nil =>
    simp only [hOL]
    exact ⟨fun h => Outcome.noConfusion h, fun b w h => by cases h; exact hi⟩
  | cons e rest =>
    simp only [hOL]
    exact Planner.computeLoop_inv hi

/-- A replan from an invariant state leaves an invariant state. -/
theorem Planner.replan_inv {s : PState} (hi : PInv s) {b : Bool} {w : PState}
    (h : Planner.replan s = Outcome.ok (b, w)) : PInv w := by
  simp only [Planner.replan] at h
  have hi0 : PInv { s with path := ([] : List (Option Cell)) } :=
    PInv_of_core (setPath_core s ([] : List (Option Cell))) hi
  cases hc : Planner.compute { s with path := ([] : List (Option Cell)) } with
  | emptyPeek => rw [hc] at h; exact Outcome.noConfusion h
  | fuelOut => rw [hc] at h; exact Outcome.noConfusion h
  | ok p =>
    obtain ⟨b1, s1⟩ := p
    rw [hc] at h
    have hi1 : PInv s1 := (Planner.compute_inv hi0).2 b1 s1 hc
    cases b1 with
    | false =>
      simp only at h
      cases h
      exact hi1
    | true =>
      simp only at h
      have hw := Planner.walkLoop_core Planner.MAX_STEPS h
      exact PInv_of_core (hw.1.trans (setPath_core s1 _)) hi1

/-- The invariant depends only on the goal, the open list, the costs and
the stored reads. -/
theorem PInv_congr {t s : PState} (hi : PInv s) (hgoal : t.goal = s.goal)
    (hopen : t.openList = s.openList) (hcosts : ∀ v, t.costs v = s.costs v)
    (hg : ∀ v, gRead t v = gRead s v) (hrhs : ∀ v, rhsRaw t v = rhsRaw s v) :
    PInv t := by
  have hrr : ∀ v, rhsRead t v = rhsRead s v := by
    intro v
    unfold rhsRead
    rw [hgoal]
    by_cases hv : v = s.goal
    · rw [if_pos hv, if_pos hv]
    · rw [if_neg hv, if_neg hv]
      exact hrhs v
  refine ⟨?_, ?_, ?_, ?_, ?_, ?_⟩
  · intro u
    rw [hopen, hg u, hrr u]
    exact hi.main u
  · intro u hgl hne
    rw [hgoal] at hgl
    rw [hg u] at hne
    rw [hrhs u]
    exact hi.fing u hgl hne
  · intro u hgl
    rw [hgoal] at hgl
    rw [hrhs u]
    exact hi.rhsB u hgl
  · intro u
    rw [hg u]
    exact hi.gB u
  · intro v
    rw [hcosts v]
    exact hi.costB v
  · rw [hopen]
    exact hi.nd

/-- The invariant of the freshly constructed state shape: one materialised
cell (the goal, at `(∞, ∞)`) and the goal alone on the queue. -/
theorem PInv_init_shape (W H : Int) (costs : Cell → Dbl) (start goal last : Cell)
    (km : Dbl) (k : KeyD) (p : List (Option Cell))
    (hc : ∀ v, costs v = COST_UNWALKABLE ∨ ∃ n : Int, costs v = Dbl.fin n ∧ FXONE ≤ n) :
    PInv { W := W, H := H, costs := costs, start := start, goal := goal, last := last,
           km := km, cellHash := [(goal, (Dbl.inf, Dbl.inf))],
           openList := [(k, goal)], path := p } := by
  refine ⟨?_, ?_, ?_, ?_, ?_, ?_⟩
  · intro w
    by_cases hw : goal = w
    · subst hw
      simp [olContains, gRead, rhsRaw, rhsRead, hashFind, Math.equalsB]
    · have hw2 : ¬w = goal := fun h => hw h.symm
      simp [olContains, gRead, rhsRaw, rhsRead, hashFind, hw, hw2, Math.equalsB]
  · intro w hgl hne
    exfalso
    apply hne
    simp only [gRead, hashFind]
    by_cases hw : goal = w
    · rw [if_pos hw]
      rfl
    · rw [if_neg hw]
      rfl
  · intro w hgl
    left
    simp only [rhsRaw, hashFind]
    by_cases hw : goal = w
    · rw [if_pos hw]
      rfl
    · rw [if_neg hw]
      rfl
  · intro w
    left
    simp only [gRead, hashFind]
    by_cases hw : goal = w
    · rw [if_pos hw]
      rfl
    · rw [if_neg hw]
      rfl
  · exact hc
  · simp

/-- Construction establishes the invariant. -/
theorem Planner.init_inv (W H : Int) (costs : Cell → Dbl) (start goal : Cell)
    (hc : ∀ v, costs v = COST_UNWALKABLE ∨ ∃ n : Int, costs v = Dbl.fin n ∧ FXONE ≤ n) :
    PInv (Planner.init W H costs start goal) := by
  simp only [Planner.init]
  rw [Planner.rhsAcc_goal rfl]
  simp only
  rw [Planner.kCalc_eq]
  simp only
  exact PInv_init_shape W H costs start goal start (Dbl.fin 0) _ [] hc

/-- Patching one cell's cost to a well-bounded value and reconciling that
cell preserves the invariant. -/
theorem Planner.setCost_updateVertex_inv {s : PState} (u : Cell) {c : Dbl} (hi : PInv s)
    (hcB : c = COST_UNWALKABLE ∨ ∃ n : Int, c = Dbl.fin n ∧ FXONE ≤ n) :
    PInv (Planner.updateVertex
      { s with costs := fun v => if v = u then c else s.costs v } u) := by
  refine Planner.updateVertex_inv u ?_ ?_ ?_ ?_ ?_ ?_
  · intro w _
    exact hi.main w
  · exact hi.fing
  · exact hi.rhsB
  · exact hi.gB
  · intro w
    show (if w = u then c else s.costs w) = COST_UNWALKABLE ∨
      ∃ n : Int, (if w = u then c else s.costs w) = Dbl.fin n ∧ FXONE ≤ n
    by_cases hw : w = u
    · rw [if_pos hw]
      exact hcB
    · rw [if_neg hw]
      exact hi.costB w
  · exact hi.nd

/-- A cost notification with a well-bounded cost preserves the invariant. -/
theorem Planner.update_inv {s : PState} (u : Cell) {c : Dbl} (hi : PInv s)
    (hcB : c = COST_UNWALKABLE ∨ ∃ n : Int, c = Dbl.fin n ∧ FXONE ≤ n) :
    PInv (Planner.update s u c) := by
  unfold Planner.update
  by_cases hug : u = s.goal
  · rw [if_pos hug]
    exact hi
  · rw [if_neg hug]
    simp only
    exact Planner.setCost_updateVertex_inv u
      (PInv_of_core (cellGen_core _ u)
        (PInv_congr hi rfl rfl (fun _ => rfl) (fun _ => rfl) (fun _ => rfl)))
      hcB

/-- Every state reachable through the public interface satisfies the
invariant. -/
theorem reachable_inv {s : PState} (h : Reachable s) : PInv s := by
  induction h with
  | init W H costs start goal hc => exact Planner.init_inv W H costs start goal hc
  | update s u c _ hc ih => exact Planner.update_inv u ih hc
  | setStart s u _ ih =>
    exact PInv_congr ih rfl rfl (fun _ => rfl) (fun _ => rfl) (fun _ => rfl)
  | replan s b w _ he ih => exact Planner.replan_inv ih he

/-- The extraction walk never reads the front of the open list at all. -/
theorem Planner.walkLoop_ne_emptyPeek : ∀ (n : Nat) (s : PState) (cur : Option Cell),
    Planner.walkLoop n s cur ≠ Outcome.emptyPeek := by
  intro n
  induction n with
  | zero =>
    intro s cur
    rw [Planner.walkLoop_zero]
    split
    · exact fun h => Outcome.noConfusion h
    · exact fun h => Outcome.noConfusion h
  | succ n ih =>
    intro s cur
    rw [Planner.walkLoop_succ]
    split
    · exact fun h => Outcome.noConfusion h
    · cases cur with
      | none => exact fun h => Outcome.noConfusion h
      | some c =>
        show (if Math.equalsB (Planner.gAcc s c DBL_MIN).2 Dbl.inf = true then _ else _)
          ≠ Outcome.emptyPeek
        split
        · exact fun h => Outcome.noConfusion h
        · exact ih _ _

/-- Claim C6: in every reachable quiescent state, each cell on the open
list has tolerantly different g and rhs reads, and each cell off the open
list - materialised or not - has tolerantly equal g and rhs reads; the
correspondence persists because every public operation maps reachable
states to reachable states. -/
theorem c6_queue_correspondence (s : PState) (h : Reachable s) :
    (∀ e, e ∈ s.openList →
      Math.equalsB (gRead s e.2) (rhsRead s e.2) = false) ∧
    (∀ u, olContains s.openList u = false →
      Math.equalsB (gRead s u) (rhsRead s u) = true) := by
  have hi := reachable_inv h
  constructor
  · intro e he
    have hc : olContains s.openList e.2 = true := by
      rw [olContains_iff_mem]
      exact List.mem_map_of_mem _ he
    have hm := hi.main e.2
    rw [hc] at hm
    cases hb : Math.equalsB (gRead s e.2) (rhsRead s e.2)
    · rfl
    · rw [hb] at hm
      cases hm
  · intro u hc
    have hm := hi.main u
    rw [hc] at hm
    cases hb : Math.equalsB (gRead s u) (rhsRead s u)
    · rw [hb] at hm
      cases hm
    · rfl

/-- Claim C6, witness: the freshly constructed corridor planner satisfies
the queue correspondence. -/
theorem c6_queue_correspondence_witness :
    (∀ e, e ∈ sLine3.openList →
      Math.equalsB (gRead sLine3 e.2) (rhsRead sLine3 e.2) = false) ∧
    (∀ u, olContains sLine3.openList u = false →
      Math.equalsB (gRead sLine3 u) (rhsRead sLine3 u) = true) :=
  c6_queue_correspondence sLine3
    (Reachable.init 3 1 costsOne (0, 0) (2, 0)
      (fun _ => Or.inr ⟨FXONE, rfl, le_refl FXONE⟩))

/-- Claim C4: from every reachable state, the repair computation never
reads the front of an empty open list, and neither does a full replan: on
an invariant state an empty queue forces a tolerantly consistent start and
hence a false loop guard, so the drained-queue-with-inconsistent-start
situation never dereferences the queue head. -/
theorem c4_no_empty_peek (s : PState) (h : Reachable s) :
    Planner.compute { s with path := ([] : List (Option Cell)) }
      ≠ Outcome.emptyPeek ∧
    Planner.replan s ≠ Outcome.emptyPeek := by
  have hi0 : PInv { s with path := ([] : List (Option Cell)) } :=
    PInv_of_core (setPath_core s ([] : List (Option Cell))) (reachable_inv h)
  refine ⟨(Planner.compute_inv hi0).1, ?_⟩
  simp only [Planner.replan]
  cases hc : Planner.compute { s with path := ([] : List (Option Cell)) } with
  | emptyPeek => exact absurd hc (Planner.compute_inv hi0).1
  | fuelOut => exact fun hh => Outcome.noConfusion hh
  | ok p =>
    obtain ⟨b1, s1⟩ := p
    cases b1
    · exact fun hh => Outcome.noConfusion hh
    · exact Planner.walkLoop_ne_emptyPeek _ _ _

/-- Claim C4, witness: the corridor planner's repair and replan never
dereference an empty queue head. -/
theorem c4_no_empty_peek_witness :
    Planner.compute { sLine3 with path := ([] : List (Option Cell)) }
      ≠ Outcome.emptyPeek ∧
    Planner.replan sLine3 ≠ Outcome.emptyPeek :=
  c4_no_empty_peek sLine3
    (Reachable.init 3 1 costsOne (0, 0) (2, 0)
      (fun _ => Or.inr ⟨FXONE, rfl, le_refl FXONE⟩))
